import Mathlib

/-!
# Verification of the slidedown parser / compiler core

A shallow embedding, over `List Char`, of the parsing and compiling core of
the slidedown repository (`src/lib/parser.py`, `src/lib/compiler.py`,
`src/config/settings.py`, `src/lib/directives.py`), together with theorems
settling the specification claims about it.

Strings are modelled as `List Char`.  Python character classes (`\w`, `\s`,
`str.isspace`, `str.strip`, `int(str)`) are modelled on their ASCII fragment,
which is exact for every ASCII input; all concrete documents considered here
are ASCII.
-/

namespace Slidedown

/-! ## Character classes and basic string operations (ASCII fragment) -/

/-- ASCII fragment of Python's `str.isspace` / regex `\s` class. -/
def pySpace (c : Char) : Bool :=
  c = ' ' || c = '\t' || c = '\n' || c = '\r' || c = '\x0b' || c = '\x0c'

/-- ASCII fragment of Python's regex `\w` class (letters, digits, underscore). -/
def wordChar (c : Char) : Bool :=
  c.isAlphanum || c = '_'

/-- Python `str.strip()` (ASCII fragment): drop whitespace from both ends. -/
def pyStrip (s : List Char) : List Char :=
  ((s.dropWhile pySpace).reverse.dropWhile pySpace).reverse

/-- Python `str.lstrip()` would be `dropWhile pySpace`; `rstrip(';')` drops
trailing semicolons. -/
def rstripSemi (s : List Char) : List Char :=
  (s.reverse.dropWhile (fun c => c = ';')).reverse

/-! ## Occurrence counting

`occCount pat s` counts the positions of `s` at which the pattern `pat`
occurs (as a contiguous substring).  This is the notion of "occurrence" used
by the placeholder invariant claims. -/

/-- Number of positions of `s` at which `pat` occurs as a substring. -/
def occCount (pat : List Char) : List Char → Nat
  | [] => if pat.isEmpty then 1 else 0
  | c :: rest => (if pat.isPrefixOf (c :: rest) then 1 else 0) + occCount pat rest

/-- `pat` does not occur in `s` (no occurrence at any position). -/
def NoSub (pat s : List Char) : Prop := ¬ pat <:+: s

instance (pat s : List Char) : Decidable (NoSub pat s) := by
  unfold NoSub; infer_instance

/-! ## Decimal representation of naturals (Python `str(int)` for `int >= 0`) -/

/-- Fuel-driven digit expansion (structural, so it evaluates in the
kernel); `fuel > n` never runs out. -/
def natDigitsF (fuel n : Nat) : List Char :=
  match fuel with
  | 0 => []
  | fuel + 1 =>
      if n < 10 then [Char.ofNat (48 + n)]
      else natDigitsF fuel (n / 10) ++ [Char.ofNat (48 + n % 10)]

/-- Decimal digits of a natural number, most significant first
(Python `str(n)` for `n ≥ 0`). -/
def natDigits (n : Nat) : List Char := natDigitsF (n + 1) n

theorem natDigitsF_fuel_irrel :
    ∀ f1 f2 n, n < f1 → n < f2 → natDigitsF f1 n = natDigitsF f2 n := by
  intro f1
  induction f1 with
  | zero => intro f2 n h1 _; omega
  | succ f1 ih =>
    intro f2 n h1 h2
    cases f2 with
    | zero => omega
    | succ f2 =>
      simp only [natDigitsF]
      by_cases h : n < 10
      · rw [if_pos h, if_pos h]
      · rw [if_neg h, if_neg h]
        have hd : n / 10 < n := Nat.div_lt_self (by omega) (by omega)
        rw [ih f2 (n / 10) (by omega) (by omega)]

/-- The defining recurrence of `natDigits`. -/
theorem natDigits_eq (n : Nat) :
    natDigits n = if n < 10 then [Char.ofNat (48 + n)]
      else natDigits (n / 10) ++ [Char.ofNat (48 + n % 10)] := by
  by_cases h : n < 10
  · rw [if_pos h]
    unfold natDigits
    conv_lhs => rw [natDigitsF]
    rw [if_pos h]
  · rw [if_neg h]
    unfold natDigits
    conv_lhs => rw [natDigitsF]
    rw [if_neg h]
    congr 1
    exact natDigitsF_fuel_irrel n (n / 10 + 1) (n / 10) (by omega) (by omega)

def isDigitChar (c : Char) : Bool := '0' ≤ c && c ≤ '9'

theorem natDigits_ne_nil (n : Nat) : natDigits n ≠ [] := by
  rw [natDigits_eq]
  split <;> simp

theorem char_ofNat_digit_isDigit {d : Nat} (h : d < 10) :
    isDigitChar (Char.ofNat (48 + d)) = true := by
  interval_cases d <;> decide

theorem natDigits_all_digits (n : Nat) :
    ∀ c ∈ natDigits n, isDigitChar c = true := by
  induction n using Nat.strong_induction_on with
  | _ n ih =>
    rw [natDigits_eq]
    split
    · next h =>
      intro c hc
      simp only [List.mem_singleton] at hc
      subst hc
      exact char_ofNat_digit_isDigit h
    · next h =>
      intro c hc
      rw [List.mem_append] at hc
      rcases hc with hc | hc
      · exact ih (n / 10) (Nat.div_lt_self (by omega) (by omega)) c hc
      · simp only [List.mem_singleton] at hc
        subst hc
        exact char_ofNat_digit_isDigit (Nat.mod_lt _ (by omega))

/-! ## Python `int(str)` (ASCII fragment)

`int` on a string strips whitespace, accepts an optional sign, then decimal
digits where single underscores may separate digit groups.  It raises
`ValueError` otherwise; the model returns `none` there. -/

def digitVal? (c : Char) : Option Nat :=
  if isDigitChar c then some (c.toNat - 48) else none

/-- Digits after the first, allowing single underscores between digits. -/
def pyIntLoop (acc : Nat) (l : List Char) : Option Nat :=
  match l with
  | [] => some acc
  | c :: rest =>
      if c = '_' then
        match rest with
        | [] => none
        | c2 :: rest2 =>
            match digitVal? c2 with
            | some d => pyIntLoop (10 * acc + d) rest2
            | none => none
      else
        match digitVal? c with
        | some d => pyIntLoop (10 * acc + d) rest
        | none => none

/-- Unsigned digit string (must start with a digit). -/
def pyIntBody (l : List Char) : Option Nat :=
  match l with
  | [] => none
  | c :: rest =>
      match digitVal? c with
      | some d => pyIntLoop d rest
      | none => none

/-- Python `int(s)` for a `str` argument, `none` when `ValueError` is raised. -/
def pyIntStr (s : List Char) : Option Int :=
  match pyStrip s with
  | '+' :: rest => (pyIntBody rest).map (Int.ofNat)
  | '-' :: rest => (pyIntBody rest).map (fun n => -(n : Int))
  | rest => (pyIntBody rest).map (Int.ofNat)

/-! ## `AppSettings` placeholder construction / extraction
(`src/config/settings.py`) -/

/-- Default `placeholder_prefix` (`"\x00CHILD_"`). -/
def phPrefix : List Char := "\x00CHILD_".toList

/-- Default `placeholder_suffix` (`"\x00"`). -/
def phSuffix : List Char := "\x00".toList

/-- `AppSettings.placeHolder_make(index)`:
`f"{self.placeholder_prefix}{index}{self.placeholder_suffix}"`. -/
def placeHolder_make (index : Nat) : List Char :=
  phPrefix ++ natDigits index ++ phSuffix

/-- `AppSettings.childIndex_extract(placeholder)`: check prefix and suffix,
slice the middle (`placeholder[len(prefix):-len(suffix)]`), parse with `int`,
`None` on failure. -/
def childIndex_extract (placeholder : List Char) : Option Int :=
  if phPrefix.isPrefixOf placeholder then
    if phSuffix.isSuffixOf placeholder then
      pyIntStr ((placeholder.drop phPrefix.length).dropLast)
    else none
  else none

/-! ### Arithmetic facts about the decimal representation -/

def accVal (acc : Nat) (ds : List Char) : Nat :=
  ds.foldl (fun a c => 10 * a + (c.toNat - 48)) acc

theorem accVal_append (acc : Nat) (a b : List Char) :
    accVal acc (a ++ b) = accVal (accVal acc a) b := by
  simp [accVal, List.foldl_append]

theorem accVal_natDigits (n : Nat) :
    ∀ acc, accVal acc (natDigits n) = acc * 10 ^ (natDigits n).length + n := by
  induction n using Nat.strong_induction_on with
  | _ n ih =>
    intro acc
    rw [natDigits_eq]
    split
    · next h =>
      simp only [accVal, List.foldl_cons, List.foldl_nil, List.length_singleton]
      have hv : (Char.ofNat (48 + n)).toNat = 48 + n := by
        interval_cases n <;> decide
      simp [hv]; ring
    · next h =>
      rw [accVal_append]
      have hlt : n / 10 < n := Nat.div_lt_self (by omega) (by omega)
      rw [ih (n / 10) hlt acc]
      have hm : n % 10 < 10 := Nat.mod_lt _ (by omega)
      have hmod : (Char.ofNat (48 + n % 10)).toNat = 48 + n % 10 := by
        interval_cases h10 : n % 10 <;> decide
      simp only [accVal, List.foldl_cons, List.foldl_nil, List.length_append,
        List.length_singleton, hmod]
      rw [pow_succ]
      have h48 : 48 + n % 10 - 48 = n % 10 := by omega
      rw [h48]
      have hring : 10 * (acc * 10 ^ (natDigits (n / 10)).length + n / 10) + n % 10 =
          acc * (10 ^ (natDigits (n / 10)).length * 10) + (10 * (n / 10) + n % 10) := by
        ring
      rw [hring]
      omega

theorem pyIntLoop_digits (ds : List Char) (h : ∀ c ∈ ds, isDigitChar c = true) :
    ∀ acc, pyIntLoop acc ds = some (accVal acc ds) := by
  induction ds with
  | nil => intro acc; simp [pyIntLoop, accVal]
  | cons c rest ih =>
    intro acc
    have hc : isDigitChar c = true := h c (List.mem_cons_self _ _)
    have hrest : ∀ x ∈ rest, isDigitChar x = true :=
      fun x hx => h x (List.mem_cons_of_mem _ hx)
    have hcu : ¬ (c = '_') := by
      intro hEq; rw [hEq] at hc; exact absurd hc (by decide)
    have hstep : pyIntLoop acc (c :: rest) =
        pyIntLoop (10 * acc + (c.toNat - 48)) rest := by
      conv_lhs => unfold pyIntLoop
      simp only [if_neg hcu, digitVal?, hc, if_pos]
    rw [hstep, ih hrest]
    rfl

theorem pyIntBody_natDigits (n : Nat) : pyIntBody (natDigits n) = some n := by
  have hv := accVal_natDigits n 0
  rw [Nat.zero_mul, Nat.zero_add] at hv
  have hall := natDigits_all_digits n
  have hne := natDigits_ne_nil n
  match hnd : natDigits n with
  | [] => exact absurd hnd hne
  | c :: rest =>
    rw [hnd] at hall hv
    have hc : isDigitChar c = true := hall c (List.mem_cons_self _ _)
    have hrest : ∀ x ∈ rest, isDigitChar x = true :=
      fun x hx => hall x (List.mem_cons_of_mem _ hx)
    simp only [pyIntBody, digitVal?, hc, if_pos]
    rw [pyIntLoop_digits rest hrest]
    have hacc : accVal (c.toNat - 48) rest = accVal 0 (c :: rest) := by
      simp [accVal]
    rw [hacc, hv]

theorem digit_not_space {c : Char} (h : isDigitChar c = true) :
    pySpace c = false := by
  by_contra hcon
  rw [Bool.not_eq_false] at hcon
  unfold pySpace at hcon
  simp only [Bool.or_eq_true, decide_eq_true_eq] at hcon
  rcases hcon with ((((h' | h') | h') | h') | h') | h' <;> rw [h'] at h <;>
    exact absurd h (by decide)

theorem natDigits_no_space (n : Nat) : ∀ c ∈ natDigits n, pySpace c = false :=
  fun c hc => digit_not_space (natDigits_all_digits n c hc)

theorem pyStrip_natDigits (n : Nat) : pyStrip (natDigits n) = natDigits n := by
  have h := natDigits_no_space n
  unfold pyStrip
  have h1 : (natDigits n).dropWhile pySpace = natDigits n := by
    apply List.dropWhile_eq_self_iff.mpr
    intro hl
    simp [h _ (List.getElem_mem hl)]
  rw [h1]
  have h2 : (natDigits n).reverse.dropWhile pySpace = (natDigits n).reverse := by
    apply List.dropWhile_eq_self_iff.mpr
    intro hl
    simp only [Bool.not_eq_true]
    have hmem : (natDigits n).reverse[0] ∈ (natDigits n).reverse :=
      List.getElem_mem hl
    exact h _ (List.mem_reverse.mp hmem)
  rw [h2, List.reverse_reverse]

theorem pyIntStr_natDigits (n : Nat) : pyIntStr (natDigits n) = some (n : Int) := by
  unfold pyIntStr
  rw [pyStrip_natDigits]
  have hall := natDigits_all_digits n
  have hne := natDigits_ne_nil n
  match hnd : natDigits n with
  | [] => exact absurd hnd hne
  | c :: rest =>
    rw [hnd] at hall
    have hc : isDigitChar c = true := hall c (List.mem_cons_self _ _)
    have hplus : c ≠ '+' := by
      intro hEq; rw [hEq] at hc; exact absurd hc (by decide)
    have hminus : c ≠ '-' := by
      intro hEq; rw [hEq] at hc; exact absurd hc (by decide)
    have hbody : pyIntBody (c :: rest) = some n := by
      rw [← hnd]; exact pyIntBody_natDigits n
    split
    · rename_i heq; rw [List.cons_eq_cons] at heq; exact absurd heq.1 hplus
    · rename_i heq; rw [List.cons_eq_cons] at heq; exact absurd heq.1 hminus
    · rw [hbody]; rfl

/-! ### Claim C10: placeholder construction / extraction round-trip -/

theorem phPrefix_length : phPrefix.length = 7 := by decide

/-- C10.  With the default placeholder prefix and suffix, construction and
index extraction round-trip: `childIndex_extract (placeHolder_make i) = i`
for every natural `i`; and on every string, `childIndex_extract` either
returns `none` or the string has the placeholder prefix, the placeholder
suffix, and an integer (in Python `int` syntax) between them.  The model is
a total function, matching the code's catch of `ValueError` (it never
raises). -/
theorem claim_C10_placeholder_roundtrip :
    (∀ i : Nat, childIndex_extract (placeHolder_make i) = some (i : Int)) ∧
    (∀ s : List Char, childIndex_extract s = none ∨
      (phPrefix <+: s ∧ phSuffix <:+ s ∧
        ∃ k : Int, pyIntStr ((s.drop phPrefix.length).dropLast) = some k ∧
          childIndex_extract s = some k)) := by
  constructor
  · intro i
    unfold childIndex_extract placeHolder_make
    rw [List.append_assoc]
    have hpre : phPrefix.isPrefixOf (phPrefix ++ (natDigits i ++ phSuffix)) = true :=
      List.isPrefixOf_iff_prefix.mpr (List.prefix_append _ _)
    have hsuf : phSuffix.isSuffixOf (phPrefix ++ (natDigits i ++ phSuffix)) = true := by
      apply List.isSuffixOf_iff_suffix.mpr
      rw [← List.append_assoc]
      exact List.suffix_append _ _
    rw [hpre, if_pos rfl, hsuf, if_pos rfl]
    rw [List.drop_left]
    have hsx : phSuffix = ['\x00'] := by decide
    rw [hsx, List.dropLast_concat]
    exact pyIntStr_natDigits i
  · intro s
    unfold childIndex_extract
    by_cases h1 : phPrefix.isPrefixOf s
    · by_cases h2 : phSuffix.isSuffixOf s
      · rw [if_pos h1, if_pos h2]
        cases hp : pyIntStr ((s.drop phPrefix.length).dropLast) with
        | none => exact Or.inl rfl
        | some k =>
          exact Or.inr ⟨List.isPrefixOf_iff_prefix.mp h1,
            List.isSuffixOf_iff_suffix.mp h2, k, rfl, rfl⟩
      · rw [if_pos h1, if_neg h2]; exact Or.inl rfl
    · rw [if_neg h1]; exact Or.inl rfl

/-! ## `Parser.brace_findMatching` (src/lib/parser.py, lines 399-436)

The loop scans forward from the opening brace with depth 1, incrementing on
`{`, decrementing on `}`, and stops at the `}` bringing depth to 0; end of
text with positive depth raises `SyntaxError` carrying the original opening
position and current line number. -/

/-- Parse-error kinds of the parser (the distinct `SyntaxError` messages). -/
inductive ErrKind where
  | unmatchedBrace
  | expectedBrace
  | unmatchedNested
  | unmatchedModifier
  deriving Repr, DecidableEq

/-- Data carried by a parse error (message kind, line number, position). -/
structure PErr where
  kind : ErrKind
  line : Nat
  pos : Nat
  deriving Repr, DecidableEq

/-- One step of the depth update: `{` increments, `}` decrements. -/
def braceStep (c : Char) (depth : Nat) : Nat :=
  if c = '{' then depth + 1 else if c = '}' then depth - 1 else depth

/-- The `while` loop of `brace_findMatching`, on the text after the opening
brace: returns the offset of the `}` that brings the depth to 0. -/
def braceScan (l : List Char) (depth : Nat) : Option Nat :=
  match l with
  | [] => none
  | c :: rest =>
      if braceStep c depth = 0 then some 0
      else
        match braceScan rest (braceStep c depth) with
        | some k => some (k + 1)
        | none => none

/-- `Parser.brace_findMatching(start_pos)`: depth-tracked scan from
`start_pos + 1`; `SyntaxError` (unmatched brace, carrying the opening
position and current line number) if depth never returns to 0. -/
def brace_findMatching (source : List Char) (line : Nat) (startPos : Nat) :
    Except PErr Nat :=
  match braceScan (source.drop (startPos + 1)) 1 with
  | some k => .ok (startPos + 1 + k)
  | none => .error ⟨.unmatchedBrace, line, startPos⟩

/-- Declarative depth function: depth after consuming `m` characters of `u`,
having started at depth `d`. -/
def depthAfter (u : List Char) (d : Nat) (m : Nat) : Int :=
  (d : Int) + ((u.take m).count '{' : Int) - ((u.take m).count '}' : Int)

theorem depthAfter_zero (u : List Char) (d : Nat) : depthAfter u d 0 = (d : Int) := by
  simp [depthAfter]

theorem depthAfter_succ_cons (c : Char) (rest : List Char) (d : Nat) (m : Nat)
    (hd : 1 ≤ d) :
    depthAfter (c :: rest) d (m + 1) = depthAfter rest (braceStep c d) m := by
  unfold depthAfter braceStep
  rw [List.take_succ_cons]
  by_cases h1 : c = '{'
  · subst h1
    simp +decide only [List.count_cons, if_pos rfl, beq_iff_eq, if_true, if_false]
    push_cast
    omega
  · by_cases h2 : c = '}'
    · subst h2
      simp +decide only [List.count_cons, if_neg h1, beq_iff_eq, if_true, if_false]
      push_cast
      omega
    · simp +decide only [List.count_cons, if_neg h1, if_neg h2, beq_iff_eq]
      simp [h1, h2]

theorem braceScan_some_iff (u : List Char) :
    ∀ d k, 1 ≤ d →
      (braceScan u d = some k ↔
        (k < u.length ∧ depthAfter u d (k + 1) = 0 ∧
          ∀ m, m ≤ k → 0 < depthAfter u d m)) := by
  induction u with
  | nil =>
    intro d k _
    constructor
    · intro h; simp [braceScan] at h
    · intro ⟨h, _, _⟩; simp at h
  | cons c rest ih =>
    intro d k hd
    have hstep : braceScan (c :: rest) d =
        (if braceStep c d = 0 then some 0
         else match braceScan rest (braceStep c d) with
           | some j => some (j + 1)
           | none => none) := by
      conv_lhs => unfold braceScan
    have hda : ∀ m, depthAfter (c :: rest) d (m + 1) = depthAfter rest (braceStep c d) m :=
      fun m => depthAfter_succ_cons c rest d m hd
    by_cases hz : braceStep c d = 0
    · rw [hstep, if_pos hz]
      constructor
      · intro h
        have hk : k = 0 := (Option.some.inj h).symm
        subst hk
        refine ⟨by simp, ?_, ?_⟩
        · rw [hda 0, depthAfter_zero, hz]; simp
        · intro m hm
          have : m = 0 := by omega
          subst this
          rw [depthAfter_zero]
          exact_mod_cast hd
      · intro ⟨hlen, hzero, hpos⟩
        congr 1
        by_contra hk
        have hk1 : 1 ≤ k := by omega
        have := hpos 1 hk1
        rw [hda 0, depthAfter_zero, hz] at this
        exact absurd this (by norm_num)
    · have hd1 : 1 ≤ braceStep c d := by omega
      rw [hstep, if_neg hz]
      constructor
      · intro h
        cases hrec : braceScan rest (braceStep c d) with
        | none => rw [hrec] at h; exact absurd h (by simp)
        | some j =>
          rw [hrec] at h
          have hk : k = j + 1 := (Option.some.inj h).symm
          subst hk
          obtain ⟨hlen, hzero, hpos⟩ := (ih (braceStep c d) j hd1).mp hrec
          refine ⟨by simp only [List.length_cons]; omega, ?_, ?_⟩
          · rw [hda (j + 1)]; exact hzero
          · intro m hm
            match m with
            | 0 =>
              rw [depthAfter_zero]
              exact_mod_cast hd
            | m + 1 =>
              rw [hda m]
              exact hpos m (by omega)
      · intro ⟨hlen, hzero, hpos⟩
        match k with
        | 0 =>
          exfalso
          rw [hda 0, depthAfter_zero] at hzero
          exact hz (by exact_mod_cast hzero)
        | j + 1 =>
          have hr : braceScan rest (braceStep c d) = some j := by
            apply (ih (braceStep c d) j hd1).mpr
            refine ⟨by simp only [List.length_cons] at hlen; omega, ?_, ?_⟩
            · rw [← hda (j + 1)]; exact hzero
            · intro m hm
              rw [← hda m]
              exact hpos (m + 1) (by omega)
          rw [hr]

theorem braceScan_none_iff (u : List Char) :
    ∀ d, 1 ≤ d →
      (braceScan u d = none ↔ ∀ m, m ≤ u.length → 0 < depthAfter u d m) := by
  induction u with
  | nil =>
    intro d hd
    constructor
    · intro _ m hm
      simp only [List.length_nil] at hm
      have : m = 0 := by omega
      subst this
      rw [depthAfter_zero]
      exact_mod_cast hd
    · intro _; simp [braceScan]
  | cons c rest ih =>
    intro d hd
    have hstep : braceScan (c :: rest) d =
        (if braceStep c d = 0 then some 0
         else match braceScan rest (braceStep c d) with
           | some j => some (j + 1)
           | none => none) := by
      conv_lhs => unfold braceScan
    have hda : ∀ m, depthAfter (c :: rest) d (m + 1) = depthAfter rest (braceStep c d) m :=
      fun m => depthAfter_succ_cons c rest d m hd
    by_cases hz : braceStep c d = 0
    · rw [hstep, if_pos hz]
      constructor
      · intro h; exact absurd h (by simp)
      · intro hpos
        exfalso
        have := hpos 1 (by simp)
        rw [hda 0, depthAfter_zero, hz] at this
        exact absurd this (by norm_num)
    · have hd1 : 1 ≤ braceStep c d := by omega
      rw [hstep, if_neg hz]
      constructor
      · intro h
        cases hrec : braceScan rest (braceStep c d) with
        | some j => rw [hrec] at h; exact absurd h (by simp)
        | none =>
          intro m hm
          match m with
          | 0 =>
            rw [depthAfter_zero]
            exact_mod_cast hd
          | m + 1 =>
            rw [hda m]
            apply (ih (braceStep c d) hd1).mp hrec m
            simp only [List.length_cons] at hm
            omega
      · intro hpos
        have hr : braceScan rest (braceStep c d) = none := by
          apply (ih (braceStep c d) hd1).mpr
          intro m hm
          rw [← hda m]
          apply hpos (m + 1)
          simp only [List.length_cons]
          omega
        rw [hr]

/-! ## Directive registry (src/lib/directives.py)

The default `DirectiveRegistry` registers exact names (no aliases are used)
and two wildcard specs `font-*` and `cowpy-*`; `get(name)` succeeds on an
exact key or on a wildcard whose prefix (text before the final `-`, plus the
`-`) starts `name`. -/

/-- The exact keys of `DirectiveRegistry.specs` after construction. -/
def exactNames : List String :=
  ["slide", "title", "body",
   "bf", "em", "tt", "underline",
   "h1", "h2", "h3", "h4", "h5", "h6",
   "typewriter", "o", "column",
   "font-*", "cowpy-*",
   "code", "comment",
   "style", "class", "syntax",
   "meta"]

/-- Prefixes of the wildcard specs (`font-*` → `font-`, `cowpy-*` → `cowpy-`). -/
def wildcardPrefixes : List String := ["font-", "cowpy-"]

/-- `DirectiveRegistry.get(name) is not None` for the default registry. -/
def registered (name : List Char) : Bool :=
  exactNames.any (fun s => s.toList = name) ||
  wildcardPrefixes.any (fun p => p.toList.isPrefixOf name)

/-! ## The directive-token regex `\.(\w+(?:-\w+)*)\{`

The regex matches at a position iff that position holds `.`, the maximal run
of name characters after it is a valid name (the run must be consumed
entirely, because a shorter match would have to be followed by `{`, which is
a name character's complement), and the run is followed by `{`. -/

/-- Characters `\w` or `-` (the alphabet of directive names). -/
def nameChar (c : Char) : Bool := wordChar c || c = '-'

/-- Tail of a valid name after a word character: word characters, or a
hyphen that must be followed by a word character. -/
def validNameTail (l : List Char) : Bool :=
  match l with
  | [] => true
  | c :: rest =>
      if wordChar c then validNameTail rest
      else if c = '-' then
        match rest with
        | [] => false
        | c2 :: rest2 => wordChar c2 && validNameTail rest2
      else false

/-- `run` is in the language of `\w+(?:-\w+)*`. -/
def validName (run : List Char) : Bool :=
  match run with
  | [] => false
  | c :: rest => wordChar c && validNameTail rest

/-- Match the directive-token regex at the head of `s`; on success return
the captured name and the text after the `{`. -/
def tokenAt (s : List Char) : Option (List Char × List Char) :=
  match s with
  | [] => none
  | c :: t =>
      if c = '.' then
        let run := t.takeWhile nameChar
        if validName run then
          if (t.drop run.length).head? = some '{' then
            some (run, (t.drop run.length).tail)
          else none
        else none
      else none

/-- `re.search` of the directive-token regex: first position at which it
matches, as a decomposition `s = pre ++ '.' :: name ++ '{' :: after`. -/
def tokenSearch (s : List Char) : Option (List Char × List Char × List Char) :=
  match s with
  | [] => none
  | c :: rest =>
      match tokenAt (c :: rest) with
      | some (name, after) => some ([], name, after)
      | none =>
          match tokenSearch rest with
          | some (pre, name, after) => some (c :: pre, name, after)
          | none => none

/-! ## Python `str.replace` (used by `parse` for the `\\` → `<br>` rewrite
and by the compiler's placeholder substitution) -/

/-- Fuel-driven implementation of Python `str.replace` (all non-overlapping
occurrences, left to right).  `fuel` exceeding the text length never runs
out. -/
def pyReplaceF (fuel : Nat) (pat repl : List Char) (s : List Char) : List Char :=
  match fuel with
  | 0 => s
  | fuel + 1 =>
      match s with
      | [] => []
      | c :: rest =>
          if pat ≠ [] ∧ pat.isPrefixOf (c :: rest) then
            repl ++ pyReplaceF fuel pat repl ((c :: rest).drop pat.length)
          else c :: pyReplaceF fuel pat repl rest

/-- Python `s.replace(pat, repl)` for nonempty `pat` (all uses here). -/
def pyReplace (pat repl s : List Char) : List Char :=
  pyReplaceF (s.length + 1) pat repl s

/-! ## Escape protection (`Parser.escapes_protect`, lines 116-205) -/

/-- The `\x00ESCAPE_<id>\x00` placeholder. -/
def escapePH (eid : Nat) : List Char :=
  '\x00' :: ("ESCAPE_".toList ++ natDigits eid ++ ['\x00'])

/-- `re.match(r'\\\.(\w+(?:-\w+)*)\\?\{', s)`: backslash, dot, name,
optional backslash, `{`.  Returns the name and `match.end()`. -/
def escMatch (s : List Char) : Option (List Char × Nat) :=
  match s with
  | c1 :: c2 :: t =>
      if c1 = '\\' ∧ c2 = '.' then
        let run := t.takeWhile nameChar
        if validName run then
          let rest := t.drop run.length
          if rest.head? = some '\\' ∧ rest.tail.head? = some '{' then
            some (run, 2 + run.length + 2)
          else if rest.head? = some '{' then
            some (run, 2 + run.length + 1)
          else none
        else none
      else none
  | _ => none

/-- The inner loop of `escapes_protect` (lines 156-184): scan for the
matching escaped closing brace, treating `\{`/`\}` and bare `{`/`}` as
nesting delimiters, accumulating the de-escaped content (the loop appends
`}` also when it closes the scan).  `none` models reaching end of text with
positive depth. -/
def escScan (l : List Char) (depth : Nat) : Option (List Char × List Char) :=
  match l with
  | '\\' :: '}' :: rest =>
      if depth - 1 = 0 then some (rest, ['}'])
      else (escScan rest (depth - 1)).map (fun p => (p.1, '}' :: p.2))
  | '\\' :: '{' :: rest =>
      (escScan rest (depth + 1)).map (fun p => (p.1, '{' :: p.2))
  | '{' :: rest =>
      (escScan rest (depth + 1)).map (fun p => (p.1, '{' :: p.2))
  | '}' :: rest =>
      if depth - 1 = 0 then some (rest, ['}'])
      else (escScan rest (depth - 1)).map (fun p => (p.1, '}' :: p.2))
  | c :: rest => (escScan rest depth).map (fun p => (p.1, c :: p.2))
  | [] => none

/-- Attempt a full escaped-directive match at the head of `s`: the anchored
regex, then the escaped-brace scan from just after the `{`.  On success
return the stored de-escaped content `.name{...}` and the remaining text. -/
def escTry (s : List Char) : Option (List Char × List Char) :=
  match escMatch s with
  | none => none
  | some (name, e) =>
      match escScan (s.drop e) 1 with
      | none => none
      | some (rem, acc) => some ('.' :: name ++ '{' :: acc, rem)

/-- Fuel-driven main loop of `escapes_protect`: on `\.` try the escaped
pattern; a full match is replaced by a placeholder and stored (de-escaped)
in the side table; otherwise the original character is kept and scanning
advances by one character. -/
def escProtectF (fuel : Nat) (s : List Char) (eid : Nat) :
    List Char × List (Nat × List Char) :=
  match fuel with
  | 0 => (s, [])
  | fuel + 1 =>
      match s with
      | [] => ([], [])
      | c :: rest =>
          if c = '\\' ∧ rest.head? = some '.' then
            match escTry (c :: rest) with
            | some p =>
                let r := escProtectF fuel p.2 (eid + 1)
                (escapePH eid ++ r.1, (eid, p.1) :: r.2)
            | none =>
                let r := escProtectF fuel rest eid
                (c :: r.1, r.2)
          else
            let r := escProtectF fuel rest eid
            (c :: r.1, r.2)

/-- `Parser.escapes_protect(source)` together with the
`escaped_sequences` side table it fills. -/
def escapes_protect (s : List Char) : List Char × List (Nat × List Char) :=
  escProtectF (s.length + 1) s 0

/-! ## Raw-block protection (`Parser.codeblocks_protect`, lines 207-260) -/

/-- The `\x00CODE_<id>\x00` placeholder. -/
def codePH (cid : Nat) : List Char :=
  '\x00' :: ("CODE_".toList ++ natDigits cid ++ ['\x00'])

/-- `re.match(r'^\s*\.syntax\{', raw)`: optional leading whitespace, then
the `.syntax{` language marker. -/
def syntaxLead (raw : List Char) : Bool :=
  ".syntax\x7b".toList.isPrefixOf (raw.dropWhile pySpace)

/-- Fuel-driven loop of `codeblocks_protect`: at each `.code{`, find the
matching close; interiors beginning (mod whitespace) with `.syntax{` are
stored in the side table and replaced by a placeholder inside the kept
`.code{ }` wrapper; other `.code{...}` spans are copied unchanged.  `off`
tracks the absolute position (for the error payload), `line` is the current
line number (always 1 at this pre-processing stage). -/
def codeProtectF (fuel : Nat) (s : List Char) (cid : Nat) (off : Nat) (line : Nat) :
    Except PErr (List Char × List (Nat × List Char)) :=
  match fuel with
  | 0 => .ok (s, [])
  | fuel + 1 =>
      match s with
      | [] => .ok ([], [])
      | c :: rest =>
          if ".code\x7b".toList.isPrefixOf (c :: rest) then
            match braceScan ((c :: rest).drop 6) 1 with
            | none => .error ⟨.unmatchedBrace, line, off + 5⟩
            | some k =>
                let raw := ((c :: rest).drop 6).take k
                let rem := ((c :: rest).drop 6).drop (k + 1)
                if syntaxLead raw then
                  match codeProtectF fuel rem (cid + 1) (off + 6 + k + 1) line with
                  | .error e => .error e
                  | .ok r =>
                      .ok (".code\x7b".toList ++ codePH cid ++ '}' :: r.1, (cid, raw) :: r.2)
                else
                  match codeProtectF fuel rem cid (off + 6 + k + 1) line with
                  | .error e => .error e
                  | .ok r => .ok ((c :: rest).take (6 + k + 1) ++ r.1, r.2)
          else
            match codeProtectF fuel rest cid (off + 1) line with
            | .error e => .error e
            | .ok r => .ok (c :: r.1, r.2)

/-- `Parser.codeblocks_protect()` with its `protected_code_blocks` table. -/
def codeblocks_protect (s : List Char) : Except PErr (List Char × List (Nat × List Char)) :=
  codeProtectF (s.length + 1) s 0 0 1

/-! ## Modifier extraction (`Parser.modifiers_extract`, lines 544-649) -/

/-- Python dict assignment on an insertion-ordered association list:
update in place if the key exists, else append. -/
def dictInsert (k v : List Char) (d : List (List Char × List Char)) :
    List (List Char × List Char) :=
  match d with
  | [] => [(k, v)]
  | (k', v') :: rest =>
      if k' = k then (k', v) :: rest else (k', v') :: dictInsert k v rest

/-- Result of `modifiers_extract`. -/
structure ExtractedModifiers where
  modifiers : List (List Char × List Char)
  remaining : List Char
  deriving Repr, DecidableEq

/-- Value characters of the `width` assignment regex (`[\w%]+`). -/
def widthChar (c : Char) : Bool := wordChar c || c = '%'

/-- Match `key` `\s*` `=` `\s*` `cls+` at the head of `s`; return the
captured value (the maximal `cls` run) and the match length. -/
def assignAt (key : List Char) (cls : Char → Bool) (s : List Char) :
    Option (List Char × Nat) :=
  if key.isPrefixOf s then
    let t1 := s.drop key.length
    let sp1 := t1.takeWhile pySpace
    let t2 := t1.drop sp1.length
    if t2.head? = some '=' then
      let t3 := t2.tail
      let sp2 := t3.takeWhile pySpace
      let v := (t3.drop sp2.length).takeWhile cls
      if v = [] then none
      else some (v, key.length + sp1.length + 1 + sp2.length + v.length)
    else none
  else none

/-- `re.search(key + r'\s*=\s*(cls+)', s)`: value captured at the first
matching position. -/
def assignSearch (key : List Char) (cls : Char → Bool) (s : List Char) :
    Option (List Char) :=
  match s with
  | [] => none
  | c :: rest =>
      match assignAt key cls (c :: rest) with
      | some (v, _) => some v
      | none => assignSearch key cls rest

/-- Length of a match of `key\s*=\s*cls+\s*;?\s*` at the head of `s`. -/
def assignSubAt (key : List Char) (cls : Char → Bool) (s : List Char) : Option Nat :=
  match assignAt key cls s with
  | none => none
  | some pr =>
      let t := s.drop pr.2
      let sp3 := t.takeWhile pySpace
      if (t.drop sp3.length).head? = some ';' then
        some (pr.2 + sp3.length + 1 +
          ((t.drop sp3.length).tail.takeWhile pySpace).length)
      else some (pr.2 + sp3.length)

/-- Fuel-driven `re.sub(key + r'\s*=\s*cls+\s*;?\s*', '', s)`. -/
def assignSubF (fuel : Nat) (key : List Char) (cls : Char → Bool) (s : List Char) :
    List Char :=
  match fuel with
  | 0 => s
  | fuel + 1 =>
      match s with
      | [] => []
      | c :: rest =>
          match assignSubAt key cls (c :: rest) with
          | some e => assignSubF fuel key cls ((c :: rest).drop e)
          | none => c :: assignSubF fuel key cls rest

def assignSub (key : List Char) (cls : Char → Bool) (s : List Char) : List Char :=
  assignSubF (s.length + 1) key cls s

/-- The `.style{}` special case (lines 614-633): extract `align=` and
`width=` assignments into their own modifier entries, removing them (with
any trailing semicolon) from the style text; drop the `style` entry when
nothing remains. -/
def styleHandle (modifiers : List (List Char × List Char)) (value : List Char) :
    List (List Char × List Char) :=
  let alignFound := assignSearch "align".toList wordChar value
  let m1 := match alignFound with
            | some a => dictInsert "align".toList a modifiers
            | none => modifiers
  let v1 := match alignFound with
            | some _ => pyStrip (assignSub "align".toList wordChar value)
            | none => value
  let widthFound := assignSearch "width".toList widthChar v1
  let m2 := match widthFound with
            | some w => dictInsert "width".toList w m1
            | none => m1
  let v2 := match widthFound with
            | some _ => pyStrip (assignSub "width".toList widthChar v1)
            | none => v1
  let v3 := pyStrip (rstripSemi v2)
  if v3 ≠ [] then dictInsert "style".toList v3 m2 else m2

/-- The anchored modifier regex `^\.((style|class|syntax))\{`. -/
def modMatch (rest : List Char) : Option (List Char) :=
  if ".style\x7b".toList.isPrefixOf rest then some "style".toList
  else if ".class\x7b".toList.isPrefixOf rest then some "class".toList
  else if ".syntax\x7b".toList.isPrefixOf rest then some "syntax".toList
  else none

/-- Fuel-driven modifier loop: repeatedly match a modifier at the current
position, find its closing brace, record its value (`style` specially),
skip trailing whitespace, and continue. -/
def modLoopF (fuel : Nat) (rest : List Char)
    (modifiers : List (List Char × List Char)) : Except PErr ExtractedModifiers :=
  match fuel with
  | 0 => .ok ⟨modifiers, rest⟩
  | fuel + 1 =>
      match modMatch rest with
      | none => .ok ⟨modifiers, rest⟩
      | some name =>
          let body := rest.drop (name.length + 2)
          match braceScan body 1 with
          | none => .error ⟨.unmatchedModifier, 0, 0⟩
          | some k =>
              let value := body.take k
              let rest' := (body.drop (k + 1)).dropWhile pySpace
              let modifiers' :=
                if name = "style".toList then styleHandle modifiers value
                else dictInsert name value modifiers
              modLoopF fuel rest' modifiers'

/-- `Parser.modifiers_extract(content)`: skip leading whitespace; if no
modifier starts there, return the original content unchanged; otherwise run
the modifier loop and return the content after the last modifier (and its
trailing whitespace). -/
def modifiers_extract (content : List Char) : Except PErr ExtractedModifiers :=
  let start := content.dropWhile pySpace
  match modMatch start with
  | none => .ok ⟨[], content⟩
  | some _ => modLoopF (content.length + 1) start []

/-! ## The structural parser (`Parser.parse` / `content_processRecursive` /
`directive_find`, lines 262-542) -/

/-- AST node (`ASTNode` dataclass). -/
structure ASTNode where
  directive : List Char
  modifiers : List (List Char × List Char)
  content : List Char
  children : List ASTNode
  line_number : Nat
  deriving Repr

/-- Result of `content_processRecursive` (`ProcessedContent` dataclass). -/
structure ProcessedContent where
  content : List Char
  children : List ASTNode
  modifiers : List (List Char × List Char)
  deriving Repr

/-- Fuel-driven scanning loop of `content_processRecursive` (lines 481-537),
on the content remaining after modifier extraction.  Scanning is over the
not-yet-spliced suffix; consumed nested directives are replaced by
`placeHolder_make` placeholders, scanning resumes immediately after the
inserted placeholder (equivalently: on the text after the consumed span).
Unregistered tokens are skipped past (just the token) and remain literal. -/
def processScanF (fuel : Nat) (rest : List Char) (line : Nat) (idx : Nat) :
    Except PErr (List Char × List ASTNode) :=
  match fuel with
  | 0 => .ok (rest, [])
  | fuel + 1 =>
      match tokenSearch rest with
      | none => .ok (rest, [])
      | some (pre, name, after) =>
          if registered name then
            match braceScan after 1 with
            | none => .error ⟨.unmatchedNested, line, 0⟩
            | some k =>
                let nested := after.take k
                match modifiers_extract nested with
                | .error e => .error e
                | .ok em =>
                    match processScanF fuel em.remaining line 0 with
                    | .error e => .error e
                    | .ok cres =>
                        let child : ASTNode :=
                          ⟨name, em.modifiers, cres.1, cres.2, line⟩
                        match processScanF fuel (after.drop (k + 1)) line (idx + 1) with
                        | .error e => .error e
                        | .ok tres =>
                            .ok (pre ++ placeHolder_make idx ++ tres.1,
                                 child :: tres.2)
          else
            match processScanF fuel after line idx with
            | .error e => .error e
            | .ok tres =>
                .ok (pre ++ '.' :: name ++ '{' :: tres.1, tres.2)

/-- `Parser.content_processRecursive(content, line_num)`: extract modifiers,
then scan for nested directives. -/
def content_processRecursive (content : List Char) (line : Nat) :
    Except PErr ProcessedContent :=
  match modifiers_extract content with
  | .error e => .error e
  | .ok em =>
      match processScanF (content.length + 1) em.remaining line 0 with
      | .error e => .error e
      | .ok r => .ok ⟨r.1, r.2, em.modifiers⟩

/-- `source.find(c, start)`. -/
def findCharFrom (source : List Char) (c : Char) (start : Nat) : Option Nat :=
  match (source.drop start).findIdx? (· = c) with
  | some i => some (start + i)
  | none => none

/-- Fuel-driven loop of `Parser.directive_find`: search for the next
directive token; unregistered names are skipped, with the next search
starting from `pos + match.end()` (where `match.end()` is relative to the
searched suffix but `pos` is absolute, so the skip overshoots by the
match's offset — modelled exactly as the code computes it). -/
def directiveFindF (source : List Char) (fuel : Nat) (searchPos : Nat) :
    Option (Nat × List Char) :=
  match fuel with
  | 0 => none
  | fuel + 1 =>
      match tokenSearch (source.drop searchPos) with
      | none => none
      | some (pre, name, _) =>
          let pos := searchPos + pre.length
          let matchEnd := pre.length + name.length + 2
          if registered name then some (pos, name)
          else directiveFindF source fuel (pos + matchEnd)

/-- Fuel-driven top-level loop of `Parser.parse` (lines 304-352): skip
whitespace (counting newlines), find the next registered directive, locate
its opening brace (`source.find('{', pos)`; `Parser.error` if absent), find
the matching close, recursively process the interior, emit a node, continue
after the closing brace. -/
def parseLoopF (source : List Char) (fuel : Nat) (pos line : Nat) :
    Except PErr (List ASTNode) :=
  match fuel with
  | 0 => .ok []
  | fuel + 1 =>
      let ws := (source.drop pos).takeWhile pySpace
      let line := line + ws.count '\n'
      let pos := pos + ws.length
      if source.length ≤ pos then .ok []
      else
        match directiveFindF source (source.length + 1) pos with
        | none => .ok []
        | some (dpos, name) =>
            match findCharFrom source '{' dpos with
            | none => .error ⟨.expectedBrace, line, pos⟩
            | some bracePos =>
                match brace_findMatching source line bracePos with
                | .error e => .error e
                | .ok closePos =>
                    let content := ((source.drop (bracePos + 1)).take
                      (closePos - (bracePos + 1)))
                    match content_processRecursive content line with
                    | .error e => .error e
                    | .ok pc =>
                        match parseLoopF source fuel (closePos + 1) line with
                        | .error e => .error e
                        | .ok nodes =>
                            .ok (⟨name, pc.modifiers, pc.content, pc.children,
                                  line⟩ :: nodes)

/-- `Parser.parse()`: protect escapes, rewrite `\\` to `<br>`, protect code
blocks, strip; empty input yields `[]`; otherwise run the scanning loop. -/
def parse (src : List Char) : Except PErr (List ASTNode) :=
  match codeblocks_protect
      (pyReplace ['\\', '\\'] "<br>".toList (escapes_protect src).1) with
  | .error err => .error err
  | .ok r =>
      if pyStrip r.1 = [] then .ok []
      else parseLoopF (pyStrip r.1) ((pyStrip r.1).length + 1) 0 1

/-! ## Compiler (`Compiler.node_compile`, src/lib/compiler.py lines 227-288)

The render-context state is the shared slide counter plus the remaining
mutable compiler state (`snippet_counters`, `typewriter_counters`,
`meta_config`), abstracted as `aux`: inspection of `directives.py` shows no
handler assigns `slide_count` (handlers only read it), so handler effects
are typed as reading the counter and acting on `aux`.  The side-table
placeholder expanders (`codeblocks_expand`, whose highlighting is an
external collaborator, and `escapes_expand`) are content-to-content
functions of the fixed side tables, carried as parameters. -/

structure CState (α : Type) where
  slide_count : Nat
  aux : α
  deriving Repr

/-- Environment of `node_compile`: handlers looked up by directive name
(a handler maps the node-with-substituted-content, the current slide
counter, and the aux state to HTML and a new aux state), plus the two
expansion passes applied to content after child substitution. -/
structure CompEnv (α : Type) where
  handlers : List Char → Option (ASTNode → Nat → α → (List Char × α))
  codeExpand : List Char → List Char
  escExpand : List Char → List Char

/-- The slide-counter predicate (line 246):
`node.directive == 'slide' and (node.children or (node.content and
node.content.strip()))`. -/
def slideBump (n : ASTNode) : Bool :=
  n.directive = "slide".toList &&
    (!n.children.isEmpty || (!n.content.isEmpty && !(pyStrip n.content).isEmpty))

/-- Step 2 of `node_compile`: replace each `placeHolder_make i` by the
`i`-th compiled child (`str.replace`, all occurrences). -/
def substChildren (content : List Char) (htmls : List (List Char)) : List Char :=
  htmls.enum.foldl (fun acc p => pyReplace (placeHolder_make p.1) p.2 acc) content

/-- The fallback for unknown directives (line 283). -/
def fallbackDiv (directive content : List Char) : List Char :=
  "<div class=\"directive-".toList ++ directive ++ "\">".toList ++
    content ++ "</div>".toList

mutual

/-- `Compiler.node_compile(node)`: bump the slide counter for real slides
(before compiling children), compile the children left to right, substitute
their HTML into the content, expand code-block and escape placeholders,
transiently set `node.content` to the substituted text for the handler,
and restore it afterwards.  Returns the HTML, the node as left behind by
the mutations, and the final state. -/
def node_compile {α : Type} (env : CompEnv α) (n : ASTNode) (st : CState α) :
    List Char × ASTNode × CState α :=
  let st1 : CState α :=
    if slideBump n then ⟨st.slide_count + 1, st.aux⟩ else st
  let rc := compileChildren env n.children st1
  let contentSub := substChildren n.content rc.1
  let contentSub2 := env.escExpand (env.codeExpand contentSub)
  let nodeSub : ASTNode :=
    ⟨n.directive, n.modifiers, contentSub2, rc.2.1, n.line_number⟩
  let hres : List Char × α :=
    match env.handlers n.directive with
    | some h => h nodeSub rc.2.2.slide_count rc.2.2.aux
    | none => (fallbackDiv n.directive contentSub2, rc.2.2.aux)
  (hres.1, ⟨n.directive, n.modifiers, n.content, rc.2.1, n.line_number⟩,
   ⟨rc.2.2.slide_count, hres.2⟩)
  termination_by sizeOf n
  decreasing_by cases n; simp; omega

/-- The child-compilation loop of `node_compile` (lines 250-253), threading
the state left to right and collecting HTML and the post-compilation child
objects. -/
def compileChildren {α : Type} (env : CompEnv α) (ns : List ASTNode)
    (st : CState α) : List (List Char) × List ASTNode × CState α :=
  match ns with
  | [] => ([], [], st)
  | n :: rest =>
      let r1 := node_compile env n st
      let r2 := compileChildren env rest r1.2.2
      (r1.1 :: r2.1, r1.2.1 :: r2.2.1, r2.2.2)
  termination_by sizeOf ns
  decreasing_by all_goals (simp; try omega)

end

mutual

/-- Number of "real slides" (per the `slideBump` predicate) in a subtree. -/
def realSlides (n : ASTNode) : Nat :=
  (if slideBump n then 1 else 0) + realSlidesList n.children
  termination_by sizeOf n
  decreasing_by cases n; simp; omega

def realSlidesList (ns : List ASTNode) : Nat :=
  match ns with
  | [] => 0
  | n :: rest => realSlides n + realSlidesList rest
  termination_by sizeOf ns
  decreasing_by all_goals (simp; try omega)

end

/-! ### Claim C2: the brace matcher -/

/-- Depth contribution of one character. -/
def braceDelta (c : Char) : Int :=
  if c = '{' then 1 else if c = '}' then -1 else 0

theorem depthAfter_step (u : List Char) (d : Nat) (m : Nat) (hm : m < u.length) :
    depthAfter u d (m + 1) = depthAfter u d m + braceDelta (u.get ⟨m, hm⟩) := by
  unfold depthAfter braceDelta
  have htake : u.take (m + 1) = u.take m ++ [u.get ⟨m, hm⟩] := by
    rw [List.take_succ, List.getElem?_eq_getElem hm]
    simp [List.get_eq_getElem]
  rw [htake]
  simp only [List.count_append, List.count_singleton]
  by_cases h1 : u.get ⟨m, hm⟩ = '{'
  · rw [h1]
    simp +decide
    ring
  · by_cases h2 : u.get ⟨m, hm⟩ = '}'
    · rw [h2]
      simp +decide
      ring
    · have b1 : (u.get ⟨m, hm⟩ == '{') = false := beq_eq_false_iff_ne.mpr h1
      have b2 : (u.get ⟨m, hm⟩ == '}') = false := beq_eq_false_iff_ne.mpr h2
      rw [if_neg h1, if_neg h2, b1, b2]
      simp

theorem closing_char_of_depth {u : List Char} {d : Nat} {k : Nat}
    (hk : k < u.length) (hz : depthAfter u d (k + 1) = 0)
    (hpos : 0 < depthAfter u d k) : u.get ⟨k, hk⟩ = '}' := by
  have hstep := depthAfter_step u d k hk
  by_contra hne
  unfold braceDelta at hstep
  by_cases h1 : u.get ⟨k, hk⟩ = '{'
  · rw [if_pos h1] at hstep; omega
  · rw [if_neg h1, if_neg hne] at hstep; omega

/-- C2.  `brace_findMatching` scans forward from the opening position with
depth 1, incrementing on `{` and decrementing on `}`:
(1) it returns `open_pos+1+k` exactly when `k` is the offset at which the
depth first returns to 0;
(2) the returned position holds a `}`;
(3) when the end of text is reached with positive depth it returns an
unbalanced-brace error that carries the original opening position (and the
current line number);
(4) concretely, parsing `.slide{no closing brace` fails with an
unmatched-brace error referencing the opening brace's position 6. -/
theorem claim_C2_braceMatcher :
    (∀ (source : List Char) (line openPos p : Nat),
        brace_findMatching source line openPos = .ok p ↔
          ∃ k, p = openPos + 1 + k ∧ k < (source.drop (openPos + 1)).length ∧
            depthAfter (source.drop (openPos + 1)) 1 (k + 1) = 0 ∧
            ∀ m, m ≤ k → 0 < depthAfter (source.drop (openPos + 1)) 1 m) ∧
    (∀ (source : List Char) (line openPos p : Nat),
        brace_findMatching source line openPos = .ok p →
          source[p]? = some '}') ∧
    (∀ (source : List Char) (line openPos : Nat) (e : PErr),
        brace_findMatching source line openPos = .error e →
          e.pos = openPos ∧ e.line = line ∧ e.kind = .unmatchedBrace ∧
          ∀ m, m ≤ (source.drop (openPos + 1)).length →
            0 < depthAfter (source.drop (openPos + 1)) 1 m) ∧
    parse ".slide\x7bno closing brace".toList =
      .error ⟨.unmatchedBrace, 1, 6⟩ := by
  have hok : ∀ (source : List Char) (line openPos p : Nat),
      brace_findMatching source line openPos = .ok p ↔
        ∃ k, p = openPos + 1 + k ∧ k < (source.drop (openPos + 1)).length ∧
          depthAfter (source.drop (openPos + 1)) 1 (k + 1) = 0 ∧
          ∀ m, m ≤ k → 0 < depthAfter (source.drop (openPos + 1)) 1 m := by
    intro source line openPos p
    unfold brace_findMatching
    cases hbs : braceScan (source.drop (openPos + 1)) 1 with
    | none =>
      simp only []
      constructor
      · intro h; exact absurd h (by simp)
      · intro ⟨k, hp, hk, hz, hpos⟩
        have : braceScan (source.drop (openPos + 1)) 1 = some k :=
          (braceScan_some_iff _ 1 k (by omega)).mpr ⟨hk, hz, hpos⟩
        rw [hbs] at this
        exact absurd this (by simp)
    | some k0 =>
      simp only []
      constructor
      · intro h
        have hp : p = openPos + 1 + k0 := (Except.ok.inj h).symm
        obtain ⟨hk, hz, hpos⟩ := (braceScan_some_iff _ 1 k0 (by omega)).mp hbs
        exact ⟨k0, hp, hk, hz, hpos⟩
      · intro ⟨k, hp, hk, hz, hpos⟩
        have : braceScan (source.drop (openPos + 1)) 1 = some k :=
          (braceScan_some_iff _ 1 k (by omega)).mpr ⟨hk, hz, hpos⟩
        rw [hbs] at this
        have hkk : k0 = k := Option.some.inj this
        rw [hp, ← hkk]
  refine ⟨hok, ?_, ?_, by rfl⟩
  · intro source line openPos p h
    obtain ⟨k, hp, hk, hz, hpos⟩ := (hok source line openPos p).mp h
    have hch := closing_char_of_depth hk hz (hpos k (Nat.le_refl k))
    rw [List.get_eq_getElem] at hch
    have hsome : (source.drop (openPos + 1))[k]? = some '}' := by
      rw [List.getElem?_eq_getElem hk, hch]
    rw [List.getElem?_drop] at hsome
    rw [hp]
    exact hsome
  · intro source line openPos e h
    unfold brace_findMatching at h
    cases hbs : braceScan (source.drop (openPos + 1)) 1 with
    | some k0 => rw [hbs] at h; exact absurd h (by simp)
    | none =>
      rw [hbs] at h
      have he : e = ⟨.unmatchedBrace, line, openPos⟩ := (Except.error.inj h).symm
      subst he
      exact ⟨rfl, rfl, rfl, (braceScan_none_iff _ 1 (by omega)).mp hbs⟩

/-- Witness for C2: the hypotheses of the characterization discharged at a
concrete input (`"a{b{}c}d"`, opening brace at position 1, closing at 6). -/
theorem claim_C2_braceMatcher_witness :
    ("a\x7bb\x7b\x7dc\x7dd".toList)[6]? = some '}' ∧
    (∃ k, 6 = 1 + 1 + k ∧ k < ("a\x7bb\x7b\x7dc\x7dd".toList.drop 2).length ∧
      depthAfter ("a\x7bb\x7b\x7dc\x7dd".toList.drop 2) 1 (k + 1) = 0 ∧
      ∀ m, m ≤ k → 0 < depthAfter ("a\x7bb\x7b\x7dc\x7dd".toList.drop 2) 1 m) := by
  constructor
  · exact claim_C2_braceMatcher.2.1 "a\x7bb\x7b\x7dc\x7dd".toList 1 1 6 (by rfl)
  · exact (claim_C2_braceMatcher.1 "a\x7bb\x7b\x7dc\x7dd".toList 1 1 6).mp (by rfl)

/-! ### Claim C3: directive token with no following brace -/

theorem mem_of_isPrefixOf {l s : List Char} {c : Char}
    (h : l.isPrefixOf s = true) (hc : c ∈ l) : c ∈ s :=
  (List.isPrefixOf_iff_prefix.mp h).sublist.subset hc

theorem mem_of_head?_eq {l : List Char} {c : Char} (h : l.head? = some c) :
    c ∈ l := by
  cases l with
  | nil => simp at h
  | cons a rest =>
    simp only [List.head?_cons, Option.some.injEq] at h
    rw [← h]
    exact List.mem_cons_self _ _

theorem tokenAt_none_of_no_brace {s : List Char} (h : '{' ∉ s) :
    tokenAt s = none := by
  cases s with
  | nil => rfl
  | cons c t =>
    simp only [tokenAt]
    by_cases hc : c = '.'
    · rw [if_pos hc]
      by_cases hv : validName (t.takeWhile nameChar) = true
      · rw [if_pos hv]
        have hhead : ¬ (t.drop (t.takeWhile nameChar).length).head? = some '{' := by
          intro heq
          have h1 : '{' ∈ t.drop (t.takeWhile nameChar).length := mem_of_head?_eq heq
          exact h (List.mem_cons_of_mem _ (List.drop_subset _ _ h1))
        rw [if_neg hhead]
      · rw [if_neg hv]
    · rw [if_neg hc]

theorem tokenSearch_none_of_no_brace {s : List Char} (h : '{' ∉ s) :
    tokenSearch s = none := by
  induction s with
  | nil => rfl
  | cons c rest ih =>
    unfold tokenSearch
    rw [tokenAt_none_of_no_brace h]
    rw [ih (fun hm => h (List.mem_cons_of_mem _ hm))]

theorem escMatch_none_of_no_brace {s : List Char} (h : '{' ∉ s) :
    escMatch s = none := by
  match s with
  | [] => rfl
  | [c] => rfl
  | c1 :: c2 :: t =>
    simp only [escMatch]
    by_cases hc : c1 = '\\' ∧ c2 = '.'
    · rw [if_pos hc]
      by_cases hv : validName (t.takeWhile nameChar) = true
      · rw [if_pos hv]
        have ht : '{' ∉ t := fun hm =>
          h (List.mem_cons_of_mem _ (List.mem_cons_of_mem _ hm))
        have hdropmem : ∀ x, (t.drop (t.takeWhile nameChar).length).head? = some x → x ∈ t :=
          fun x hx => List.drop_subset _ _ (mem_of_head?_eq hx)
        have h1 : ¬ ((t.drop (t.takeWhile nameChar).length).head? = some '\\' ∧
            (t.drop (t.takeWhile nameChar).length).tail.head? = some '{') := by
          intro ⟨_, h2⟩
          exact ht (List.drop_subset _ _
            ((List.tail_sublist _).subset (mem_of_head?_eq h2)))
        have h2 : ¬ (t.drop (t.takeWhile nameChar).length).head? = some '{' :=
          fun hx => ht (hdropmem _ hx)
        rw [if_neg h1, if_neg h2]
      · rw [if_neg hv]
    · rw [if_neg hc]

theorem escTry_none_of_no_brace {s : List Char} (h : '{' ∉ s) :
    escTry s = none := by
  simp only [escTry]
  rw [escMatch_none_of_no_brace h]

theorem escProtectF_no_brace :
    ∀ fuel (s : List Char) eid, '{' ∉ s → escProtectF fuel s eid = (s, []) := by
  intro fuel
  induction fuel with
  | zero => intro s eid _; rfl
  | succ fuel ih =>
    intro s eid h
    cases s with
    | nil => rfl
    | cons c rest =>
      have hrest : '{' ∉ rest := fun hm => h (List.mem_cons_of_mem _ hm)
      simp only [escProtectF]
      by_cases hcond : c = '\\' ∧ rest.head? = some '.'
      · rw [if_pos hcond, escTry_none_of_no_brace h]
        rw [ih rest eid hrest]
      · rw [if_neg hcond]
        rw [ih rest eid hrest]

theorem mem_pyReplaceF :
    ∀ fuel (pat repl s : List Char) c, c ∈ pyReplaceF fuel pat repl s →
      c ∈ s ∨ c ∈ repl := by
  intro fuel
  induction fuel with
  | zero => intro _ _ s c h; exact Or.inl h
  | succ fuel ih =>
    intro pat repl s c h
    cases s with
    | nil => simp [pyReplaceF] at h
    | cons a rest =>
      simp only [pyReplaceF] at h
      split at h
      · rw [List.mem_append] at h
        rcases h with h | h
        · exact Or.inr h
        · rcases ih pat repl _ c h with h' | h'
          · exact Or.inl (List.drop_subset _ _ h')
          · exact Or.inr h'
      · rcases List.mem_cons.mp h with h' | h'
        · exact Or.inl (h' ▸ List.mem_cons_self _ _)
        · rcases ih pat repl rest c h' with h'' | h''
          · exact Or.inl (List.mem_cons_of_mem _ h'')
          · exact Or.inr h''

theorem mem_pyReplace {pat repl s : List Char} {c : Char}
    (h : c ∈ pyReplace pat repl s) : c ∈ s ∨ c ∈ repl :=
  mem_pyReplaceF _ pat repl s c h

theorem codeProtectF_no_brace :
    ∀ fuel (s : List Char) cid off line, '{' ∉ s →
      codeProtectF fuel s cid off line = .ok (s, []) := by
  intro fuel
  induction fuel with
  | zero => intro s cid off line _; rfl
  | succ fuel ih =>
    intro s cid off line h
    cases s with
    | nil => rfl
    | cons c rest =>
      have hrest : '{' ∉ rest := fun hm => h (List.mem_cons_of_mem _ hm)
      have hpre : ¬ (".code\x7b".toList.isPrefixOf (c :: rest) = true) := by
        intro hp
        exact h (mem_of_isPrefixOf hp (by decide))
      simp only [codeProtectF]
      rw [if_neg hpre, ih rest cid (off + 1) line hrest]

theorem pyStrip_subset {s : List Char} : ∀ c ∈ pyStrip s, c ∈ s := by
  intro c hc
  unfold pyStrip at hc
  rw [List.mem_reverse] at hc
  have h1 := (List.dropWhile_sublist _).subset hc
  rw [List.mem_reverse] at h1
  exact (List.dropWhile_sublist _).subset h1

theorem directiveFindF_none_of_no_brace {source : List Char}
    (h : '{' ∉ source) (fuel searchPos : Nat) :
    directiveFindF source fuel searchPos = none := by
  cases fuel with
  | zero => rfl
  | succ fuel =>
    conv_lhs => unfold directiveFindF
    rw [tokenSearch_none_of_no_brace
      (fun hm => h (List.drop_subset _ _ hm))]

theorem parseLoopF_no_brace {source : List Char} (h : '{' ∉ source)
    (fuel pos line : Nat) : parseLoopF source fuel pos line = .ok [] := by
  cases fuel with
  | zero => rfl
  | succ fuel =>
    conv_lhs => unfold parseLoopF
    by_cases hlen : source.length ≤ pos + ((source.drop pos).takeWhile pySpace).length
    · rw [if_pos hlen]
    · rw [if_neg hlen]
      rw [directiveFindF_none_of_no_brace h]

/-- C3 counterexample.  In `".slide hello"` the registered directive name
`slide` appears with no `{` anywhere after it, yet `parse` raises no error:
it returns the empty node list (the token regex requires `{` immediately
after the name, so the name is never even recognized as a directive and the
missing-brace branch is unreachable). -/
theorem claim_C3_counterexample :
    parse ".slide hello".toList = .ok [] ∧
    registered "slide".toList = true ∧
    '{' ∉ ".slide hello".toList := by
  refine ⟨rfl, rfl, by decide⟩

/-- Every source containing no `{` parses to `ok []` (used by the amended
C3: a bare registered name in a brace-free source is plain text). -/
theorem parse_no_brace (s : List Char) (h : '{' ∉ s) : parse s = .ok [] := by
  unfold parse
  have h1 : escapes_protect s = (s, []) :=
    escProtectF_no_brace _ s 0 h
  rw [h1]
  have h2 : '{' ∉ pyReplace ['\\', '\\'] "<br>".toList s := by
    intro hm
    rcases mem_pyReplace hm with h' | h'
    · exact h h'
    · exact absurd h' (by decide)
  have h3 : codeblocks_protect (pyReplace ['\\', '\\'] "<br>".toList s) =
      .ok (pyReplace ['\\', '\\'] "<br>".toList s, []) :=
    codeProtectF_no_brace _ _ 0 0 1 h2
  rw [h3]
  dsimp only
  have h4 : '{' ∉ pyStrip (pyReplace ['\\', '\\'] "<br>".toList s) :=
    fun hm => h2 (pyStrip_subset _ hm)
  by_cases h5 : pyStrip (pyReplace ['\\', '\\'] "<br>".toList s) = []
  · rw [if_pos h5]
  · rw [if_neg h5]
    exact parseLoopF_no_brace h4 _ 0 1

/-! ### Claim C4: unregistered directive-like tokens are skipped -/

/-- C4.  When the content scanner finds a directive-like token `.name{`
whose name is not registered, it raises nothing and creates no child: it
skips past just that token (the content keeps it literally) and continues
scanning from right after the token's `{`.  Concretely,
`.tt{.directive{content}}` parses to a single node with content exactly
`".directive{content}"` and zero children. -/
theorem claim_C4_unregistered_skip :
    (∀ fuel (rest pre name after : List Char) (line idx : Nat),
        tokenSearch rest = some (pre, name, after) →
        registered name = false →
        processScanF (fuel + 1) rest line idx =
          (match processScanF fuel after line idx with
           | .error e => .error e
           | .ok tres => .ok (pre ++ '.' :: name ++ '{' :: tres.1, tres.2))) ∧
    parse ".tt\x7b.directive\x7bcontent\x7d\x7d".toList =
      .ok [⟨"tt".toList, [], ".directive\x7bcontent\x7d".toList, [], 1⟩] := by
  constructor
  · intro fuel rest pre name after line idx hts hreg
    conv_lhs => unfold processScanF
    rw [hts]
    dsimp only
    have hneg : ¬ (registered name = true) := by rw [hreg]; simp
    rw [if_neg hneg]
  · rfl

/-- Witness for C4's general part at a concrete input (the unregistered
token `.directive{` inside content `".directive{x}"`). -/
theorem claim_C4_unregistered_skip_witness :
    processScanF 21 ".directive\x7bx\x7d".toList 1 0 =
      .ok (".directive\x7bx\x7d".toList, []) := by
  have h := claim_C4_unregistered_skip.1 20 ".directive\x7bx\x7d".toList []
    "directive".toList "x\x7d".toList 1 0 (by rfl) (by rfl)
  rw [h]
  rfl

/-! ### Claim C7: escape protection never raises and fails open -/

/-- C7.  `escapes_protect` is a total function (the model raises nothing by
construction, matching the code, which only scans and slices):
(1) at a `\.` occurrence where the escaped-directive pattern does not fully
match (no well-formed escaped closing, or the anchored regex fails), the
original character is kept unchanged and scanning advances by exactly one
character (fail open);
(2) at a fully matched escaped directive, the whole run is replaced by one
escape placeholder and the de-escaped text is stored in the side table;
(3) a source with no backslash at all is returned unchanged with an empty
table;
(4) concretely, `".tt{Use \.directive\{content\} syntax}"` becomes
`".tt{Use ␀ESCAPE_0␀ syntax}"` with stored entry `".directive{content}"`. -/
theorem claim_C7_escapes_failOpen :
    (∀ fuel (c : Char) (rest : List Char) eid,
        (c = '\\' ∧ rest.head? = some '.') →
        escTry (c :: rest) = none →
        escProtectF (fuel + 1) (c :: rest) eid =
          (c :: (escProtectF fuel rest eid).1, (escProtectF fuel rest eid).2)) ∧
    (∀ fuel (c : Char) (rest : List Char) eid p,
        (c = '\\' ∧ rest.head? = some '.') →
        escTry (c :: rest) = some p →
        escProtectF (fuel + 1) (c :: rest) eid =
          (escapePH eid ++ (escProtectF fuel p.2 (eid + 1)).1,
           (eid, p.1) :: (escProtectF fuel p.2 (eid + 1)).2)) ∧
    (∀ s : List Char, '\\' ∉ s → escapes_protect s = (s, [])) ∧
    escapes_protect ".tt\x7bUse \\.directive\\\x7bcontent\\\x7d syntax\x7d".toList =
      (".tt\x7bUse \x00ESCAPE_0\x00 syntax\x7d".toList,
       [(0, ".directive\x7bcontent\x7d".toList)]) := by
  refine ⟨?_, ?_, ?_, by rfl⟩
  · intro fuel c rest eid hcond hnone
    simp only [escProtectF]
    rw [if_pos hcond, hnone]
  · intro fuel c rest eid p hcond hsome
    simp only [escProtectF]
    rw [if_pos hcond, hsome]
  · have haux : ∀ fuel (s : List Char) eid, '\\' ∉ s →
        escProtectF fuel s eid = (s, []) := by
      intro fuel
      induction fuel with
      | zero => intro s eid _; rfl
      | succ fuel ih =>
        intro s eid h
        cases s with
        | nil => rfl
        | cons c rest =>
          have hrest : '\\' ∉ rest := fun hm => h (List.mem_cons_of_mem _ hm)
          have hcond : ¬ (c = '\\' ∧ rest.head? = some '.') := by
            intro ⟨hc, _⟩
            exact h (hc ▸ List.mem_cons_self _ _)
          simp only [escProtectF]
          rw [if_neg hcond, ih rest eid hrest]
    intro s h
    exact haux _ s 0 h

/-- Witness for C7: the fail-open step at the concrete malformed escape
`"\.bf{x"` (pattern matches but the brace is never closed), and the
no-backslash case at `"plain"`. -/
theorem claim_C7_escapes_failOpen_witness :
    escProtectF 7 "\\.bf\x7bx".toList 0 =
      ('\\' :: (escProtectF 6 ".bf\x7bx".toList 0).1,
        (escProtectF 6 ".bf\x7bx".toList 0).2) ∧
    escapes_protect "plain".toList = ("plain".toList, []) := by
  constructor
  · exact claim_C7_escapes_failOpen.1 6 '\\' ".bf\x7bx".toList 0 ⟨rfl, rfl⟩ (by rfl)
  · exact claim_C7_escapes_failOpen.2.2.1 "plain".toList (by decide)

/-! ### Claim C5: the `.style{}` special case -/

theorem wordChar_not_space {c : Char} (h : wordChar c = true) :
    pySpace c = false := by
  by_contra hcon
  rw [Bool.not_eq_false] at hcon
  unfold pySpace at hcon
  simp only [Bool.or_eq_true, decide_eq_true_eq] at hcon
  rcases hcon with ((((h' | h') | h') | h') | h') | h' <;> rw [h'] at h <;>
    exact absurd h (by decide)

theorem widthChar_not_space {c : Char} (h : widthChar c = true) :
    pySpace c = false := by
  unfold widthChar at h
  rw [Bool.or_eq_true] at h
  rcases h with h | h
  · exact wordChar_not_space h
  · rw [decide_eq_true_eq] at h
    rw [h]
    decide

theorem takeWhile_all {p : Char → Bool} {a : List Char}
    (h : ∀ c ∈ a, p c = true) : a.takeWhile p = a := by
  induction a with
  | nil => rfl
  | cons c rest ih =>
    rw [List.takeWhile_cons_of_pos (h c (List.mem_cons_self _ _))]
    rw [ih (fun x hx => h x (List.mem_cons_of_mem _ hx))]

theorem takeWhile_nil_of_head {p : Char → Bool} {c : Char} {l : List Char}
    (h : p c = false) : (c :: l).takeWhile p = [] :=
  List.takeWhile_cons_of_neg (by rw [h]; simp)

theorem pyStrip_of_no_space {s : List Char}
    (h : ∀ c ∈ s, pySpace c = false) : pyStrip s = s := by
  unfold pyStrip
  have h1 : s.dropWhile pySpace = s := by
    apply List.dropWhile_eq_self_iff.mpr
    intro hl
    simp [h _ (List.getElem_mem hl)]
  rw [h1]
  have h2 : s.reverse.dropWhile pySpace = s.reverse := by
    apply List.dropWhile_eq_self_iff.mpr
    intro hl
    simp only [Bool.not_eq_true]
    have hmem : s.reverse[0] ∈ s.reverse := List.getElem_mem hl
    exact h _ (List.mem_reverse.mp hmem)
  rw [h2, List.reverse_reverse]

theorem count_eq_zero_of_not_mem {c : Char} {l : List Char} (h : c ∉ l) :
    l.count c = 0 :=
  List.count_eq_zero.mpr h

/-- A brace-free value followed by the closing brace: the scanner stops at
exactly that brace. -/
theorem braceScan_braceFree {value : List Char} (rest : List Char)
    (h1 : '{' ∉ value) (h2 : '}' ∉ value) :
    braceScan (value ++ '}' :: rest) 1 = some value.length := by
  induction value with
  | nil =>
    rw [List.nil_append]
    simp only [braceScan]
    have hz : braceStep '}' 1 = 0 := by decide
    rw [hz]
    simp
  | cons c v ih =>
    have hc1 : ¬ (c = '{') := fun hc => h1 (hc ▸ List.mem_cons_self _ _)
    have hc2 : ¬ (c = '}') := fun hc => h2 (hc ▸ List.mem_cons_self _ _)
    have hstep : braceStep c 1 = 1 := by
      unfold braceStep
      rw [if_neg hc1, if_neg hc2]
    rw [List.cons_append]
    simp only [braceScan]
    rw [hstep]
    norm_num
    rw [ih (fun hm => h1 (List.mem_cons_of_mem _ hm))
        (fun hm => h2 (List.mem_cons_of_mem _ hm))]

/-- One pass of the modifier loop over a single leading `.style{value}`
(brace-free value), stopping right after it. -/
theorem modLoopF_single_style (fuel : Nat) (value rest : List Char)
    (mods : List (List Char × List Char))
    (h1 : '{' ∉ value) (h2 : '}' ∉ value)
    (hstop : modMatch (((value ++ '}' :: rest).drop (value.length + 1)).dropWhile pySpace) = none) :
    modLoopF (fuel + 2) (".style\x7b".toList ++ (value ++ '}' :: rest)) mods =
      .ok ⟨styleHandle mods value,
           ((value ++ '}' :: rest).drop (value.length + 1)).dropWhile pySpace⟩ := by
  have hmm : modMatch (".style\x7b".toList ++ (value ++ '}' :: rest)) =
      some "style".toList := by
    unfold modMatch
    rw [if_pos]
    exact List.isPrefixOf_iff_prefix.mpr ⟨value ++ '}' :: rest, rfl⟩
  conv_lhs => unfold modLoopF
  rw [hmm]
  dsimp only
  have hbody : (".style\x7b".toList ++ (value ++ '}' :: rest)).drop
      ("style".toList.length + 2) = value ++ '}' :: rest := by
    have : ".style\x7b".toList.length = "style".toList.length + 2 := by decide
    rw [← this, List.drop_left]
  rw [hbody, braceScan_braceFree rest h1 h2]
  dsimp only
  have htake : (value ++ '}' :: rest).take value.length = value :=
    List.take_left _ _
  rw [htake]
  rw [if_pos rfl]
  conv_lhs => unfold modLoopF
  rw [hstop]

theorem suffix_append_cases {t p w : List Char} (h : t <:+ p ++ w) :
    t <:+ w ∨ ∃ p', p' ≠ [] ∧ p' <:+ p ∧ t = p' ++ w := by
  induction p with
  | nil => exact Or.inl (by simpa using h)
  | cons c p' ih =>
    rw [List.cons_append] at h
    rcases List.suffix_cons_iff.mp h with h' | h'
    · exact Or.inr ⟨c :: p', by simp, List.suffix_refl _, by rw [h', List.cons_append]⟩
    · rcases ih h' with h'' | ⟨q, hq1, hq2, hq3⟩
      · exact Or.inl h''
      · exact Or.inr ⟨q, hq1, hq2.trans (List.suffix_cons _ _), hq3⟩

theorem assignAt_mem_eq {key : List Char} {cls : Char → Bool} {s : List Char}
    {pr : List Char × Nat} (h : assignAt key cls s = some pr) : '=' ∈ s := by
  simp only [assignAt] at h
  split at h
  · split at h
    · next hhead =>
      have h1 := mem_of_head?_eq hhead
      exact List.drop_subset _ _ (List.drop_subset _ _ h1)
    · exact absurd h (by simp)
  · exact absurd h (by simp)

theorem assignAt_prefix {key : List Char} {cls : Char → Bool} {s : List Char}
    {pr : List Char × Nat} (h : assignAt key cls s = some pr) :
    key.isPrefixOf s = true := by
  by_contra hnp
  rw [Bool.not_eq_true] at hnp
  simp only [assignAt] at h
  rw [if_neg (by rw [hnp]; simp)] at h
  exact absurd h (by simp)

theorem assignSearch_none_of {key : List Char} {cls : Char → Bool} {s : List Char}
    (h : ∀ t, t <:+ s → t ≠ [] → assignAt key cls t = none) :
    assignSearch key cls s = none := by
  induction s with
  | nil => rfl
  | cons c rest ih =>
    simp only [assignSearch]
    rw [h (c :: rest) (List.suffix_refl _) (by simp)]
    exact ih (fun t ht hne => h t (ht.trans (List.suffix_cons _ _)) hne)

theorem assignSubAt_none_of_assignAt {key : List Char} {cls : Char → Bool}
    {s : List Char} (h : assignAt key cls s = none) :
    assignSubAt key cls s = none := by
  simp only [assignSubAt, h]

theorem assignSubF_id {key : List Char} {cls : Char → Bool} :
    ∀ fuel (s : List Char),
      (∀ t, t <:+ s → t ≠ [] → assignSubAt key cls t = none) →
      assignSubF fuel key cls s = s := by
  intro fuel
  induction fuel with
  | zero => intro s _; rfl
  | succ fuel ih =>
    intro s h
    cases s with
    | nil => rfl
    | cons c rest =>
      simp only [assignSubF]
      rw [h (c :: rest) (List.suffix_refl _) (by simp)]
      rw [ih rest (fun t ht hne => h t (ht.trans (List.suffix_cons _ _)) hne)]

/-- No `align=...` assignment matches anywhere inside `"width=" ++ w` when
`w` consists of `[\w%]` characters (they contain no `=`). -/
theorem no_align_in_width_tail {w : List Char}
    (hww : ∀ c ∈ w, widthChar c = true) :
    ∀ t, t <:+ ("width=".toList ++ w) → t ≠ [] →
      assignAt "align".toList wordChar t = none := by
  intro t ht hne
  by_contra hcon
  rcases Option.ne_none_iff_exists'.mp hcon with ⟨pr, hpr⟩
  rcases suffix_append_cases ht with hcase | ⟨p', hp1, hp2, hp3⟩
  · have he : '=' ∈ t := assignAt_mem_eq hpr
    have hew : '=' ∈ w := hcase.sublist.subset he
    have := hww '=' hew
    exact absurd this (by decide)
  · have hpre := assignAt_prefix hpr
    have hhead : t.head? = some 'a' := by
      cases t with
      | nil => exact absurd rfl hne
      | cons x xs =>
        have hx : (('a' == x) && ("lign".toList.isPrefixOf xs)) = true := by
          exact hpre
        rw [Bool.and_eq_true] at hx
        have : x = 'a' := (beq_iff_eq.mp hx.1).symm
        rw [this]
        rfl
    cases p' with
    | nil => exact hp1 rfl
    | cons y ys =>
      have hy : y ∈ "width=".toList := hp2.sublist.subset (List.mem_cons_self _ _)
      have hth : t.head? = some y := by rw [hp3, List.cons_append]; rfl
      rw [hhead] at hth
      have hya : y = 'a' := (Option.some.inj hth).symm
      rw [hya] at hy
      exact absurd hy (by decide)

theorem assignAt_align_head (a : List Char) (ha : a ≠ [])
    (haw : ∀ c ∈ a, wordChar c = true) :
    assignAt "align".toList wordChar ("align=".toList ++ a) =
      some (a, a.length + 6) := by
  have hsp2 : a.takeWhile pySpace = [] := by
    cases a with
    | nil => rfl
    | cons c a' =>
      exact takeWhile_nil_of_head (wordChar_not_space (haw c (List.mem_cons_self _ _)))
  have hv : a.takeWhile wordChar = a := takeWhile_all haw
  have hpre : "align".toList.isPrefixOf ("align=".toList ++ a) = true := rfl
  have hdrop : ("align=".toList ++ a).drop "align".toList.length = '=' :: a := rfl
  simp only [assignAt]
  rw [hpre, if_pos rfl, hdrop]
  have hsp1 : ('=' :: a).takeWhile pySpace = [] := rfl
  rw [hsp1]
  simp only [List.length_nil, List.drop_zero, List.head?_cons, List.tail_cons,
    if_true, hsp2, hv]
  rw [if_neg ha]
  have h5 : "align".toList.length = 5 := rfl
  rw [h5]
  norm_num
  omega

theorem assignAt_width_head (w : List Char) (hw : w ≠ [])
    (hww : ∀ c ∈ w, widthChar c = true) :
    assignAt "width".toList widthChar ("width=".toList ++ w) =
      some (w, w.length + 6) := by
  have hsp2 : w.takeWhile pySpace = [] := by
    cases w with
    | nil => rfl
    | cons c w' =>
      exact takeWhile_nil_of_head (widthChar_not_space (hww c (List.mem_cons_self _ _)))
  have hv : w.takeWhile widthChar = w := takeWhile_all hww
  have hpre : "width".toList.isPrefixOf ("width=".toList ++ w) = true := rfl
  have hdrop : ("width=".toList ++ w).drop "width".toList.length = '=' :: w := rfl
  simp only [assignAt]
  rw [hpre, if_pos rfl, hdrop]
  have hsp1 : ('=' :: w).takeWhile pySpace = [] := rfl
  rw [hsp1]
  simp only [List.length_nil, List.drop_zero, List.head?_cons, List.tail_cons,
    if_true, hsp2, hv]
  rw [if_neg hw]
  have h5 : "width".toList.length = 5 := rfl
  rw [h5]
  norm_num
  omega

theorem drop_full_append {p a : List Char} {n : Nat}
    (h : (p ++ a).length ≤ n) : (p ++ a).drop n = [] :=
  List.drop_eq_nil_of_le h

theorem assignSubF_nil (f : Nat) (k : List Char) (cls : Char → Bool) :
    assignSubF f k cls [] = [] := by cases f <;> rfl

theorem assignSub_align_head (a : List Char) (ha : a ≠ [])
    (haw : ∀ c ∈ a, wordChar c = true) :
    assignSub "align".toList wordChar ("align=".toList ++ a) = [] := by
  unfold assignSub
  have hlen : ("align=".toList ++ a).length = a.length + 6 := by
    simp [List.length_append]
    try omega
  have hshape : ∃ c rest, "align=".toList ++ a = c :: rest :=
    ⟨'a', "lign=".toList ++ a, rfl⟩
  obtain ⟨c, rest, hcr⟩ := hshape
  rw [hcr]
  have hfuel : (c :: rest).length + 1 = rest.length + 2 := by simp
  rw [hfuel]
  simp only [assignSubF]
  have hsub : assignSubAt "align".toList wordChar (c :: rest) = some (a.length + 6) := by
    rw [← hcr]
    simp only [assignSubAt]
    rw [assignAt_align_head a ha haw]
    dsimp only
    have hd : ("align=".toList ++ a).drop (a.length + 6) = [] :=
      drop_full_append (by rw [hlen])
    rw [hd]
    simp
  rw [hsub]
  dsimp only
  have hd2 : (c :: rest).drop (a.length + 6) = [] := by
    rw [← hcr]
    exact drop_full_append (by rw [hlen])
  rw [hd2]

theorem assignSub_width_head (w : List Char) (hw : w ≠ [])
    (hww : ∀ c ∈ w, widthChar c = true) :
    assignSub "width".toList widthChar ("width=".toList ++ w) = [] := by
  unfold assignSub
  have hlen : ("width=".toList ++ w).length = w.length + 6 := by
    simp [List.length_append]
    try omega
  have hshape : ∃ c rest, "width=".toList ++ w = c :: rest :=
    ⟨'w', "idth=".toList ++ w, rfl⟩
  obtain ⟨c, rest, hcr⟩ := hshape
  rw [hcr]
  have hfuel : (c :: rest).length + 1 = rest.length + 2 := by simp
  rw [hfuel]
  simp only [assignSubF]
  have hsub : assignSubAt "width".toList widthChar (c :: rest) = some (w.length + 6) := by
    rw [← hcr]
    simp only [assignSubAt]
    rw [assignAt_width_head w hw hww]
    dsimp only
    have hd : ("width=".toList ++ w).drop (w.length + 6) = [] :=
      drop_full_append (by rw [hlen])
    rw [hd]
    simp
  rw [hsub]
  dsimp only
  have hd2 : (c :: rest).drop (w.length + 6) = [] := by
    rw [← hcr]
    exact drop_full_append (by rw [hlen])
  rw [hd2]

/-- `styleHandle` on a value that is exactly one `align=` assignment:
the assignment is pulled into an `align` entry, nothing remains of the
style text, and no `style` key is recorded. -/
theorem styleHandle_align_only (mods : List (List Char × List Char))
    (a : List Char) (ha : a ≠ []) (haw : ∀ c ∈ a, wordChar c = true) :
    styleHandle mods ("align=".toList ++ a) =
      dictInsert "align".toList a mods := by
  unfold styleHandle
  have hsearch : assignSearch "align".toList wordChar ("align=".toList ++ a) =
      some a := by
    have hcr : "align=".toList ++ a = 'a' :: ("lign=".toList ++ a) := rfl
    rw [hcr]
    simp only [assignSearch]
    rw [← hcr, assignAt_align_head a ha haw]
  rw [hsearch]
  dsimp only
  rw [assignSub_align_head a ha haw]
  rfl

/-- `styleHandle` on a value that is exactly one `width=` assignment. -/
theorem styleHandle_width_only (mods : List (List Char × List Char))
    (w : List Char) (hw : w ≠ []) (hww : ∀ c ∈ w, widthChar c = true) :
    styleHandle mods ("width=".toList ++ w) =
      dictInsert "width".toList w mods := by
  unfold styleHandle
  have hnone : assignSearch "align".toList wordChar ("width=".toList ++ w) =
      none :=
    assignSearch_none_of (fun t ht hne => no_align_in_width_tail hww t ht hne)
  rw [hnone]
  dsimp only
  have hsearch : assignSearch "width".toList widthChar ("width=".toList ++ w) =
      some w := by
    have hcr : "width=".toList ++ w = 'w' :: ("idth=".toList ++ w) := rfl
    rw [hcr]
    simp only [assignSearch]
    rw [← hcr, assignAt_width_head w hw hww]
  rw [hsearch]
  dsimp only
  rw [assignSub_width_head w hw hww]
  rfl

/-- C5 counterexample.  The code's `align` regex has no word boundary: in
`.style{malign=left}x` the only position where `align=<value>` matches is
inside the word `malign` (preceded by the word character `m`), yet
`modifiers_extract` still extracts `align = "left"` and leaves `style = "m"`
— refuting the claim's "matched at a word boundary". -/
theorem claim_C5_style_counterexample :
    modifiers_extract ".style\x7bmalign=left\x7dx".toList =
      .ok ⟨[("align".toList, "left".toList), ("style".toList, "m".toList)],
           "x".toList⟩ ∧
    ((List.range "malign=left".toList.length).all (fun i =>
        !(assignAt "align".toList wordChar ("malign=left".toList.drop i)).isSome ||
        (decide (0 < i) && wordChar ("malign=left".toList.getD (i - 1) ' ')))) = true := by
  constructor
  · rfl
  · rfl

/-- C5 (amended).  With the word-boundary qualifier dropped (the regexes
match anywhere in the style text), the claim holds: embedded `align=` /
`width=` assignments are pulled out of the style value into separate
top-level `align` / `width` entries and removed (with any trailing
semicolon) from the style text, and when nothing remains of the style value
no `style` key is recorded at all.  Shown by: (1)/(2) general single
`align=`/`width=` assignment values, for arbitrary value tokens; (3) the
full extraction through `modifiers_extract` for a leading
`.style{align=...}` modifier; (4) a combined `align=left;width=50%` value
(semicolon removed, no `style` key); (5) a value with residual style text
`color: red` kept as the `style` entry. -/
theorem claim_C5_amended :
    (∀ (mods : List (List Char × List Char)) (a : List Char), a ≠ [] →
        (∀ c ∈ a, wordChar c = true) →
        styleHandle mods ("align=".toList ++ a) =
          dictInsert "align".toList a mods) ∧
    (∀ (mods : List (List Char × List Char)) (w : List Char), w ≠ [] →
        (∀ c ∈ w, widthChar c = true) →
        styleHandle mods ("width=".toList ++ w) =
          dictInsert "width".toList w mods) ∧
    (∀ (a rest : List Char), a ≠ [] → (∀ c ∈ a, wordChar c = true) →
        modMatch (rest.dropWhile pySpace) = none →
        modifiers_extract (".style\x7balign=".toList ++ a ++ '}' :: rest) =
          .ok ⟨[("align".toList, a)], rest.dropWhile pySpace⟩) ∧
    modifiers_extract ".style\x7balign=left;width=50%\x7dx".toList =
      .ok ⟨[("align".toList, "left".toList), ("width".toList, "50%".toList)],
           "x".toList⟩ ∧
    modifiers_extract ".style\x7bcolor: red; align=left\x7dText".toList =
      .ok ⟨[("align".toList, "left".toList),
            ("style".toList, "color: red".toList)], "Text".toList⟩ := by
  refine ⟨styleHandle_align_only, styleHandle_width_only, ?_, by rfl, by rfl⟩
  intro a rest ha haw hstop
  have hbr1 : '{' ∉ "align=".toList ++ a := by
    intro hm
    rcases List.mem_append.mp hm with h' | h'
    · exact absurd h' (by decide)
    · exact absurd (haw _ h') (by decide)
  have hbr2 : '}' ∉ "align=".toList ++ a := by
    intro hm
    rcases List.mem_append.mp hm with h' | h'
    · exact absurd h' (by decide)
    · exact absurd (haw _ h') (by decide)
  have hshape : ".style\x7balign=".toList ++ a ++ '}' :: rest =
      ".style\x7b".toList ++ (("align=".toList ++ a) ++ '}' :: rest) := rfl
  rw [hshape]
  unfold modifiers_extract
  have hdw : (".style\x7b".toList ++ (("align=".toList ++ a) ++ '}' :: rest)).dropWhile
      pySpace = ".style\x7b".toList ++ (("align=".toList ++ a) ++ '}' :: rest) := rfl
  dsimp only
  rw [hdw]
  have hmm : modMatch (".style\x7b".toList ++ (("align=".toList ++ a) ++ '}' :: rest)) =
      some "style".toList := by
    unfold modMatch
    rw [if_pos]
    exact List.isPrefixOf_iff_prefix.mpr ⟨("align=".toList ++ a) ++ '}' :: rest, rfl⟩
  rw [hmm]
  dsimp only
  have hdropstop : (((("align=".toList ++ a)) ++ '}' :: rest).drop
      (("align=".toList ++ a).length + 1)).dropWhile pySpace =
      rest.dropWhile pySpace := by
    have hsh : ("align=".toList ++ a) ++ '}' :: rest =
        (("align=".toList ++ a) ++ ['}']) ++ rest := by simp
    have hln : (("align=".toList ++ a) ++ ['}']).length =
        ("align=".toList ++ a).length + 1 := by simp
    rw [hsh, ← hln, List.drop_left]
  have hfuel : (".style\x7b".toList ++ (("align=".toList ++ a) ++ '}' :: rest)).length + 1 =
      (a.length + rest.length + 13) + 2 := by
    simp [List.length_append]
    try omega
  rw [hfuel]
  rw [modLoopF_single_style (a.length + rest.length + 13) _ rest [] hbr1 hbr2
    (by rw [hdropstop]; exact hstop)]
  rw [styleHandle_align_only [] a ha haw]
  rw [hdropstop]
  rfl

/-- Witness for the amended C5 at concrete inputs. -/
theorem claim_C5_amended_witness :
    styleHandle [] "align=center".toList =
      dictInsert "align".toList "center".toList [] ∧
    modifiers_extract ".style\x7balign=left\x7dx".toList =
      .ok ⟨[("align".toList, "left".toList)], "x".toList⟩ := by
  constructor
  · exact claim_C5_amended.1 [] "center".toList (by decide) (by decide)
  · have h := claim_C5_amended.2.2.1 "left".toList "x".toList (by decide)
      (by decide) (by rfl)
    exact h

/-! ### Claim C6: raw-block protection of `.code{}` -/

/-- C6 counterexample.  `.code{ .syntax{p}x}`'s interior begins with a
space, not with the `.syntax{` marker, yet the block is protected (the
check allows leading whitespace: `^\s*\.syntax\{`) — refuting the claim's
"exactly when the interior begins with a `.syntax{` language marker". -/
theorem claim_C6_codeblocks_counterexample :
    codeblocks_protect ".code\x7b .syntax\x7bp\x7dx\x7d".toList =
      .ok (".code\x7b\x00CODE_0\x00\x7d".toList, [(0, " .syntax\x7bp\x7dx".toList)]) ∧
    ".syntax\x7b".toList.isPrefixOf " .syntax\x7bp\x7dx".toList = false := by
  exact ⟨rfl, rfl⟩

/-- Balance of an interior: every prefix has at least as many `{` as `}`,
and the totals agree — i.e. the first depth-matched close after `.code{`
is the brace right after the interior. -/
def BalancedInterior (interior : List Char) : Prop :=
  interior.count '{' = interior.count '}' ∧
  ∀ m ∈ List.range (interior.length + 1),
    (interior.take m).count '}' ≤ (interior.take m).count '{'

theorem braceScan_balanced {interior : List Char} (post : List Char)
    (hbal : BalancedInterior interior) :
    braceScan (interior ++ '}' :: post) 1 = some interior.length := by
  obtain ⟨hb1, hb2⟩ := hbal
  apply (braceScan_some_iff _ 1 interior.length (Nat.le_refl 1)).mpr
  refine ⟨by simp, ?_, ?_⟩
  · unfold depthAfter
    have htake : (interior ++ '}' :: post).take (interior.length + 1) =
        interior ++ ['}'] := by
      have hta : (interior ++ '}' :: post).take (interior.length + 1) =
          interior ++ ('}' :: post).take 1 := List.take_append 1
      simpa using hta
    rw [htake]
    simp only [List.count_append]
    have h1 : List.count '{' ['}'] = 0 := by decide
    have h2 : List.count '}' ['}'] = 1 := by decide
    rw [h1, h2]
    push_cast
    omega
  · intro m hm
    unfold depthAfter
    have htake : (interior ++ '}' :: post).take m = interior.take m :=
      List.take_append_of_le_length hm
    rw [htake]
    have := hb2 m (List.mem_range.mpr (by omega))
    push_cast
    omega

/-- C6 (amended).  The raw-block pass protects a `.code{...}` block (stores
the full raw interior in the side table, replaces the interior only, keeps
the `.code{ }` wrapper) exactly when the interior begins — after optional
leading whitespace — with the `.syntax{` language marker; otherwise the
whole `.code{...}` span is left byte-for-byte unchanged (and the table
untouched), while scanning continues after the block in both cases. -/
theorem claim_C6_codeblocks_amended (interior post : List Char)
    (hbal : BalancedInterior interior) :
    codeblocks_protect (".code\x7b".toList ++ interior ++ '}' :: post) =
      (if syntaxLead interior then
        match codeProtectF (".code\x7b".toList ++ interior ++ '}' :: post).length
            post 1 (6 + interior.length + 1) 1 with
        | .error e => .error e
        | .ok r => .ok (".code\x7b".toList ++ codePH 0 ++ '}' :: r.1,
            (0, interior) :: r.2)
      else
        match codeProtectF (".code\x7b".toList ++ interior ++ '}' :: post).length
            post 0 (6 + interior.length + 1) 1 with
        | .error e => .error e
        | .ok r => .ok ((".code\x7b".toList ++ interior ++ '}' :: post).take
            (6 + interior.length + 1) ++ r.1, r.2)) ∧
    (syntaxLead interior =
      ".syntax\x7b".toList.isPrefixOf (interior.dropWhile pySpace)) := by
  refine ⟨?_, rfl⟩
  unfold codeblocks_protect
  generalize (".code\x7b".toList ++ interior ++ '}' :: post).length = F
  have hcons : ".code\x7b".toList ++ interior ++ '}' :: post =
      '.' :: ("code\x7b".toList ++ interior ++ '}' :: post) := rfl
  rw [hcons]
  simp only [codeProtectF]
  have hpre : ".code\x7b".toList.isPrefixOf
      ('.' :: ("code\x7b".toList ++ interior ++ '}' :: post)) = true :=
    List.isPrefixOf_iff_prefix.mpr ⟨interior ++ '}' :: post, by simp⟩
  rw [if_pos hpre]
  have hd6 : ('.' :: ("code\x7b".toList ++ interior ++ '}' :: post)).drop 6 =
      interior ++ '}' :: post := rfl
  rw [hd6, braceScan_balanced post hbal]
  dsimp only
  have htakeI : (interior ++ '}' :: post).take interior.length = interior :=
    List.take_left _ _
  have hdropI : (interior ++ '}' :: post).drop (interior.length + 1) = post := by
    have hsh : interior ++ '}' :: post = (interior ++ ['}']) ++ post := by simp
    have hln : (interior ++ ['}']).length = interior.length + 1 := by simp
    rw [hsh, ← hln, List.drop_left]
  rw [htakeI, hdropI]

instance (interior : List Char) : Decidable (BalancedInterior interior) := by
  unfold BalancedInterior
  infer_instance

/-- Witness for the amended C6 at a concrete balanced interior. -/
theorem claim_C6_codeblocks_amended_witness :
    codeblocks_protect ".code\x7binline\x7d".toList =
      .ok (".code\x7binline\x7d".toList, []) ∧
    codeblocks_protect ".code\x7b.syntax\x7bpy\x7dx\x7d".toList =
      .ok (".code\x7b\x00CODE_0\x00\x7d".toList, [(0, ".syntax\x7bpy\x7dx".toList)]) := by
  have h1 := (claim_C6_codeblocks_amended "inline".toList [] (by decide)).1
  have h2 := (claim_C6_codeblocks_amended ".syntax\x7bpy\x7dx".toList [] (by decide)).1
  constructor
  · rw [show ".code\x7binline\x7d".toList =
        ".code\x7b".toList ++ "inline".toList ++ '}' :: [] from rfl, h1]
    rfl
  · rw [show ".code\x7b.syntax\x7bpy\x7dx\x7d".toList =
        ".code\x7b".toList ++ ".syntax\x7bpy\x7dx".toList ++ '}' :: [] from rfl, h2]
    rfl

/-! ### Claims C8 / C9: the render walker -/

theorem compile_restores_aux :
    ∀ (k : Nat),
      (∀ {α : Type} (env : CompEnv α) (n : ASTNode) (st : CState α),
          sizeOf n ≤ k → (node_compile env n st).2.1 = n) ∧
      (∀ {α : Type} (env : CompEnv α) (ns : List ASTNode) (st : CState α),
          sizeOf ns ≤ k → (compileChildren env ns st).2.1 = ns) := by
  intro k
  induction k using Nat.strong_induction_on with
  | _ k ih =>
    constructor
    · intro α env n st hk
      obtain ⟨d, m, c, ch, l⟩ := n
      have hsz : sizeOf (ASTNode.mk d m c ch l) =
          1 + sizeOf d + sizeOf m + sizeOf c + sizeOf ch + sizeOf l := by
        simp
      have hlt : sizeOf ch < k := by omega
      simp only [node_compile]
      rw [(ih (sizeOf ch) hlt).2 env ch _ (Nat.le_refl _)]
    · intro α env ns st hk
      cases ns with
      | nil => simp [compileChildren]
      | cons n rest =>
        have hsz : sizeOf (n :: rest) = 1 + sizeOf n + sizeOf rest := by
          simp
        have h1 : sizeOf n < k := by omega
        have h2 : sizeOf rest < k := by omega
        simp only [compileChildren]
        rw [(ih (sizeOf n) h1).1 env n st (Nat.le_refl _)]
        rw [(ih (sizeOf rest) h2).2 env rest _ (Nat.le_refl _)]

/-- C8.  Rendering does not change the tree: after `node_compile` returns,
the node (directive, modifiers, content, children, line) equals its value
before the call — the content is only transiently overwritten with the
substitution-applied text for the handler and restored afterwards, at every
depth, so the same node can be rendered again. -/
theorem claim_C8_render_restores_node {α : Type} (env : CompEnv α)
    (n : ASTNode) (st : CState α) : (node_compile env n st).2.1 = n :=
  (compile_restores_aux (sizeOf n)).1 env n st (Nat.le_refl _)

theorem compile_count_aux :
    ∀ (k : Nat),
      (∀ {α : Type} (env : CompEnv α) (n : ASTNode) (st : CState α),
          sizeOf n ≤ k →
          (node_compile env n st).2.2.slide_count =
            st.slide_count + realSlides n) ∧
      (∀ {α : Type} (env : CompEnv α) (ns : List ASTNode) (st : CState α),
          sizeOf ns ≤ k →
          (compileChildren env ns st).2.2.slide_count =
            st.slide_count + realSlidesList ns) := by
  intro k
  induction k using Nat.strong_induction_on with
  | _ k ih =>
    constructor
    · intro α env n st hk
      obtain ⟨d, m, c, ch, l⟩ := n
      have hsz : sizeOf (ASTNode.mk d m c ch l) =
          1 + sizeOf d + sizeOf m + sizeOf c + sizeOf ch + sizeOf l := by
        simp
      have hlt : sizeOf ch < k := by omega
      simp only [node_compile, realSlides]
      rw [(ih (sizeOf ch) hlt).2 env ch _ (Nat.le_refl _)]
      by_cases hb : slideBump (ASTNode.mk d m c ch l) = true
      · rw [if_pos hb, if_pos hb]
        dsimp only
        omega
      · rw [if_neg hb, if_neg hb]
        omega
    · intro α env ns st hk
      cases ns with
      | nil => simp [compileChildren, realSlidesList]
      | cons n rest =>
        have hsz : sizeOf (n :: rest) = 1 + sizeOf n + sizeOf rest := by
          simp
        have h1 : sizeOf n < k := by omega
        have h2 : sizeOf rest < k := by omega
        simp only [compileChildren, realSlidesList]
        rw [(ih (sizeOf rest) h2).2 env rest _ (Nat.le_refl _)]
        rw [(ih (sizeOf n) h1).1 env n st (Nat.le_refl _)]
        omega

/-- C9.  The shared slide counter: (1) it is incremented before any child
is compiled — the whole result, in particular the final counter, is
computed by running the child-compilation loop on the already-bumped state,
so every descendant observes the incremented number; (2) the increment
happens exactly when the node's directive is `slide` and its children list
is non-empty or its content is non-empty after stripping (the `slideBump`
predicate, shown equivalent to that condition); (3) consequently the final
counter is the initial one plus the number of such "real slides" in the
subtree, and slides failing the predicate add nothing of their own. -/
theorem claim_C9_slide_counter :
    (∀ {α : Type} (env : CompEnv α) (n : ASTNode) (st : CState α),
        (node_compile env n st).2.2.slide_count =
          (compileChildren env n.children
            (if slideBump n then ⟨st.slide_count + 1, st.aux⟩ else st)).2.2.slide_count) ∧
    (∀ n : ASTNode, slideBump n = true ↔
        (n.directive = "slide".toList ∧
          (n.children ≠ [] ∨ pyStrip n.content ≠ []))) ∧
    (∀ {α : Type} (env : CompEnv α) (n : ASTNode) (st : CState α),
        (node_compile env n st).2.2.slide_count =
          st.slide_count + realSlides n) ∧
    (∀ {α : Type} (env : CompEnv α) (n : ASTNode) (st : CState α),
        slideBump n = false →
        (node_compile env n st).2.2.slide_count =
          st.slide_count + realSlidesList n.children) := by
  have hcount : ∀ {α : Type} (env : CompEnv α) (n : ASTNode) (st : CState α),
      (node_compile env n st).2.2.slide_count = st.slide_count + realSlides n :=
    fun env n st => (compile_count_aux (sizeOf n)).1 env n st (Nat.le_refl _)
  refine ⟨?_, ?_, hcount, ?_⟩
  · intro α env n st
    simp only [node_compile]
  · intro n
    obtain ⟨d, m, c, ch, l⟩ := n
    unfold slideBump
    simp only [Bool.and_eq_true, Bool.or_eq_true, Bool.not_eq_true',
      decide_eq_true_eq, List.isEmpty_eq_false]
    constructor
    · rintro ⟨h1, h2⟩
      exact ⟨h1, h2.imp id And.right⟩
    · rintro ⟨h1, h2⟩
      refine ⟨h1, h2.imp id (fun hs => ⟨fun hc => hs (by rw [hc]; rfl), hs⟩)⟩
  · intro α env n st hb
    rw [hcount env n st]
    have : realSlides n = realSlidesList n.children := by
      simp only [realSlides]
      rw [hb]
      simp
    rw [this]

/-! ### Claim C1: the placeholder invariant

The invariant concerns occurrences of the child placeholders
`placeHolder_make j = "\x00CHILD_<j>\x00"` in node contents.  The fragment
`CHILD_` of the placeholder contains no NUL byte, so a source that itself
contains the literal text `CHILD_` can collude with inserted placeholders
(the closing NUL of one placeholder plus literal `CHILD_<digits>` plus the
opening NUL of the next forms a spurious placeholder), while a source free
of the literal `CHILD_` cannot. -/

/-- The collision-prone fragment of the child placeholder. -/
def chPat : List Char := "CHILD_".toList

/-- The per-node placeholder invariant of the claim: the content holds
exactly one occurrence of the `j`-th child placeholder for each `j` below
the number of children, and no occurrence of any other placeholder; and the
same recursively for every child. -/
def NodeInv (n : ASTNode) : Prop :=
  (∀ j, occCount (placeHolder_make j) n.content =
      if j < n.children.length then 1 else 0) ∧
  ∀ c ∈ n.children, NodeInv c
termination_by sizeOf n
decreasing_by
  cases n; rename_i hmem; have := List.sizeOf_lt_of_mem hmem; simp at *; omega

theorem occCount_ne_zero_isInfix {pat s : List Char} (h : occCount pat s ≠ 0) :
    pat <:+: s := by
  induction s with
  | nil =>
    simp only [occCount] at h
    split at h
    · next he =>
      rw [List.isEmpty_eq_true] at he
      rw [he]
    · omega
  | cons c rest ih =>
    simp only [occCount] at h
    by_cases hp : pat.isPrefixOf (c :: rest) = true
    · exact (List.isPrefixOf_iff_prefix.mp hp).isInfix
    · rw [if_neg hp] at h
      exact (ih (by omega)).trans (List.suffix_cons c rest).isInfix

theorem occCount_eq_zero_of_noSub {pat s : List Char} (h : NoSub pat s) :
    occCount pat s = 0 := by
  by_contra hne
  exact h (occCount_ne_zero_isInfix hne)

theorem NoSub.mono {pat s w : List Char} (h : NoSub pat s) (hw : w <:+: s) :
    NoSub pat w := fun hc => h (hc.trans hw)

theorem prefix_append_cons {pat u v : List Char} {c : Char} (hc : c ∉ pat)
    (h : pat <+: u ++ c :: v) : pat <+: u := by
  induction u generalizing pat with
  | nil =>
    cases pat with
    | nil => exact List.nil_prefix
    | cons q qs =>
      rw [List.nil_append, List.cons_prefix_cons] at h
      obtain ⟨hqc, -⟩ := h
      subst hqc
      exact absurd (List.mem_cons_self _ _) hc
  | cons a u' ih =>
    cases pat with
    | nil => exact List.nil_prefix
    | cons q qs =>
      rw [List.cons_append, List.cons_prefix_cons] at h
      obtain ⟨rfl, h2⟩ := h
      have hcqs : c ∉ qs := fun hm => hc (List.mem_cons_of_mem _ hm)
      exact List.cons_prefix_cons.mpr ⟨rfl, ih hcqs h2⟩

theorem infix_append_cons_split {pat u v : List Char} {c : Char} (hc : c ∉ pat)
    (h : pat <:+: u ++ c :: v) : pat <:+: u ∨ pat <:+: v := by
  induction u with
  | nil =>
    rw [List.nil_append] at h
    rcases List.infix_cons_iff.mp h with h | h
    · left
      cases pat with
      | nil => exact List.nil_infix
      | cons q qs =>
        rw [List.cons_prefix_cons] at h
        obtain ⟨hqc, -⟩ := h
        subst hqc
        exact absurd (List.mem_cons_self _ _) hc
    · exact Or.inr h
  | cons a u' ih =>
    rw [List.cons_append] at h
    rcases List.infix_cons_iff.mp h with h | h
    · exact Or.inl (prefix_append_cons hc h).isInfix
    · rcases ih h with h' | h'
      · exact Or.inl (h'.trans (List.suffix_cons a u').isInfix)
      · exact Or.inr h'

theorem noSub_sep {pat u v : List Char} {c : Char} (hc : c ∉ pat)
    (hu : NoSub pat u) (hv : NoSub pat v) : NoSub pat (u ++ c :: v) :=
  fun h => (infix_append_cons_split hc h).elim hu hv

theorem noSub_chPat_of_no_H {w : List Char} (h : 'H' ∉ w) : NoSub chPat w :=
  fun hinf => h (hinf.subset (by decide))

theorem ph_cons_form (j : Nat) :
    placeHolder_make j = '\x00' :: (chPat ++ (natDigits j ++ ['\x00'])) := by
  show phPrefix ++ natDigits j ++ phSuffix = _
  have h1 : phPrefix = '\x00' :: chPat := by decide
  have h2 : phSuffix = ['\x00'] := by decide
  rw [h1, h2]
  simp [List.append_assoc]

theorem ph_split (j : Nat) :
    placeHolder_make j = ['\x00'] ++ ((chPat ++ natDigits j) ++ ['\x00']) := by
  rw [ph_cons_form, List.singleton_append, List.append_assoc]

theorem ph_head (j : Nat) : (placeHolder_make j).head? = some '\x00' := by
  rw [ph_cons_form]
  rfl

theorem chPat_infix_ph (j : Nat) : chPat <:+: placeHolder_make j := by
  rw [ph_cons_form]
  exact ((List.prefix_append chPat _).isInfix).trans (List.suffix_cons _ _).isInfix

theorem chPat_length : chPat.length = 6 := by decide

theorem chPat_not_prefix_append {t v : List Char} (h : NoSub chPat t)
    (hv : v.head? = some '\x00') : ¬ chPat <+: t ++ v := by
  intro hp
  have hch : chPat = (t ++ v).take 6 := by
    have h6 := List.prefix_iff_eq_take.mp hp
    rw [chPat_length] at h6
    exact h6
  by_cases hlen : 6 ≤ t.length
  · apply h
    have hpre : chPat <+: t := by
      rw [hch, List.take_append_of_le_length hlen]
      exact List.take_prefix _ _
    exact hpre.isInfix
  · have hvne : v = '\x00' :: v.tail := by
      cases v with
      | nil => simp at hv
      | cons a w =>
        simp only [List.head?_cons, Option.some.injEq] at hv
        rw [hv]
        rfl
    have hmem : '\x00' ∈ chPat := by
      rw [hch, List.take_append_eq_append_take]
      refine List.mem_append_right _ ?_
      rw [hvne]
      have hpos : 6 - t.length = (6 - t.length - 1) + 1 := by omega
      rw [hpos, List.take_succ_cons]
      exact List.mem_cons_self _ _
    exact absurd hmem (by decide)

/-- Occurrences of `pat` that start inside `u`, within the text `u ++ v`. -/
def occCountIn (pat : List Char) : List Char → List Char → Nat
  | [], _ => 0
  | c :: r, v =>
      (if pat.isPrefixOf (c :: r ++ v) then 1 else 0) + occCountIn pat r v

theorem occCount_append (pat u v : List Char) :
    occCount pat (u ++ v) = occCountIn pat u v + occCount pat v := by
  induction u with
  | nil => simp [occCountIn]
  | cons c r ih =>
    simp only [List.cons_append, List.append_eq, occCount, occCountIn, ih]
    omega

theorem occCountIn_append (pat u₁ u₂ v : List Char) :
    occCountIn pat (u₁ ++ u₂) v =
      occCountIn pat u₁ (u₂ ++ v) + occCountIn pat u₂ v := by
  induction u₁ with
  | nil => simp [occCountIn]
  | cons c r ih =>
    simp only [List.cons_append, List.append_eq, occCountIn, ih,
      List.append_assoc]
    omega

theorem occCountIn_eq_zero_of_head {pat u v : List Char} {a : Char}
    (hp : pat.head? = some a) (h : ∀ c ∈ u, c ≠ a) : occCountIn pat u v = 0 := by
  induction u with
  | nil => rfl
  | cons c r ih =>
    have hne : ¬ (pat.isPrefixOf (c :: r ++ v) = true) := by
      intro hpre
      cases pat with
      | nil => simp at hp
      | cons p ps =>
        simp only [List.head?_cons, Option.some.injEq] at hp
        subst hp
        have := List.isPrefixOf_iff_prefix.mp hpre
        rw [List.cons_append, List.cons_prefix_cons] at this
        exact h c (List.mem_cons_self _ _) this.1.symm
    simp only [occCountIn, if_neg hne,
      ih (fun x hx => h x (List.mem_cons_of_mem _ hx))]

theorem occCountIn_ph_eq_zero_of_noSub {t v : List Char} {j : Nat}
    (h : NoSub chPat t) (hv : v.head? = some '\x00') :
    occCountIn (placeHolder_make j) t v = 0 := by
  induction t with
  | nil => rfl
  | cons c r ih =>
    have hr : NoSub chPat r := h.mono (List.suffix_cons c r).isInfix
    have hne : ¬ ((placeHolder_make j).isPrefixOf (c :: r ++ v) = true) := by
      intro hpre
      have hpre' := List.isPrefixOf_iff_prefix.mp hpre
      rw [ph_cons_form j] at hpre'
      rw [List.cons_append, List.cons_prefix_cons] at hpre'
      obtain ⟨-, hX⟩ := hpre'
      have hchp : chPat <+: r ++ v := (List.prefix_append chPat _).trans hX
      exact chPat_not_prefix_append hr hv hchp
    simp only [occCountIn, if_neg hne, ih hr]

theorem digit_seq_prefix_eq {ds₁ ds₂ w₁ w₂ : List Char}
    (h₁ : ∀ c ∈ ds₁, isDigitChar c = true) (h₂ : ∀ c ∈ ds₂, isDigitChar c = true)
    (h : ds₁ ++ '\x00' :: w₁ <+: ds₂ ++ '\x00' :: w₂) : ds₁ = ds₂ := by
  induction ds₁ generalizing ds₂ with
  | nil =>
    cases ds₂ with
    | nil => rfl
    | cons b bs =>
      rw [List.nil_append, List.cons_append, List.cons_prefix_cons] at h
      have hb := h₂ b (List.mem_cons_self _ _)
      rw [← h.1] at hb
      exact absurd hb (by decide)
  | cons a as ih =>
    cases ds₂ with
    | nil =>
      rw [List.cons_append, List.nil_append, List.cons_prefix_cons] at h
      have ha := h₁ a (List.mem_cons_self _ _)
      rw [h.1] at ha
      exact absurd ha (by decide)
    | cons b bs =>
      rw [List.cons_append, List.cons_append, List.cons_prefix_cons] at h
      obtain ⟨rfl, h2⟩ := h
      rw [ih (fun c hc => h₁ c (List.mem_cons_of_mem _ hc))
        (fun c hc => h₂ c (List.mem_cons_of_mem _ hc)) h2]

theorem natDigits_injective {i j : Nat} (h : natDigits i = natDigits j) :
    i = j := by
  have hi := accVal_natDigits i 0
  have hj := accVal_natDigits j 0
  rw [h] at hi
  rw [hj] at hi
  omega

theorem prefix_cancel_left :
    ∀ (l a b : List Char), l ++ a <+: l ++ b → a <+: b := by
  intro l
  induction l with
  | nil => intro a b h; simpa using h
  | cons c r ih =>
    intro a b h
    rw [List.cons_append, List.cons_append, List.cons_prefix_cons] at h
    exact ih a b h.2

theorem ph_prefix_ph_append {i j : Nat} {rest : List Char} :
    ((placeHolder_make j).isPrefixOf (placeHolder_make i ++ rest) = true) ↔
      j = i := by
  constructor
  · intro hp
    have h := List.isPrefixOf_iff_prefix.mp hp
    rw [ph_cons_form j, ph_cons_form i, List.cons_append,
      List.cons_prefix_cons] at h
    obtain ⟨-, h⟩ := h
    rw [List.append_assoc] at h
    have h2 := prefix_cancel_left chPat _ _ h
    have h3 : natDigits j ++ '\x00' :: ([] : List Char) <+:
        natDigits i ++ '\x00' :: rest := by
      simpa using h2
    exact natDigits_injective
      (digit_seq_prefix_eq (natDigits_all_digits j) (natDigits_all_digits i) h3)
  · rintro rfl
    exact List.isPrefixOf_iff_prefix.mpr (List.prefix_append _ _)

/-- `PHSeq idx m out`: `out` interleaves `CHILD_`-free text segments with
the placeholders `idx, idx + 1, …, idx + m - 1`, in order — the shape of
the content built by the nested-directive scanning loop. -/
inductive PHSeq : Nat → Nat → List Char → Prop where
  | last (idx : Nat) (t : List Char) (ht : NoSub chPat t) : PHSeq idx 0 t
  | step (idx m : Nat) (t : List Char) (ht : NoSub chPat t)
      (rest : List Char) (hr : PHSeq (idx + 1) m rest) :
      PHSeq idx (m + 1) (t ++ (placeHolder_make idx ++ rest))

theorem ph_append_head (idx : Nat) (rest : List Char) :
    (placeHolder_make idx ++ rest).head? = some '\x00' := by
  rw [ph_cons_form]
  rfl

theorem PHSeq.not_chpat_prefix {idx m : Nat} {out : List Char}
    (h : PHSeq idx m out) : ¬ chPat <+: out := by
  cases h with
  | last idx t ht => exact fun hp => ht hp.isInfix
  | step idx m t ht rest hr =>
      exact chPat_not_prefix_append ht (ph_append_head idx rest)

theorem PHSeq.prepend_sep {idx m : Nat} {w : List Char} (t : List Char)
    (c : Char) (hc : c ∉ chPat) (ht : NoSub chPat t) (h : PHSeq idx m w) :
    PHSeq idx m (t ++ c :: w) := by
  cases h with
  | last idx t' ht' => exact PHSeq.last idx _ (noSub_sep hc ht ht')
  | step idx m t' ht' rest hr =>
      have hassoc : t ++ c :: (t' ++ (placeHolder_make idx ++ rest)) =
          (t ++ c :: t') ++ (placeHolder_make idx ++ rest) := by
        rw [List.append_assoc, List.cons_append]
      rw [hassoc]
      exact PHSeq.step idx m (t ++ c :: t') (noSub_sep hc ht ht') rest hr

theorem noSub_ph_of_noSub_chPat {t : List Char} (h : NoSub chPat t) (j : Nat) :
    NoSub (placeHolder_make j) t :=
  fun hinf => h ((chPat_infix_ph j).trans hinf)

theorem PHSeq.occ {idx m : Nat} {out : List Char} (h : PHSeq idx m out) :
    ∀ j, occCount (placeHolder_make j) out =
      if idx ≤ j ∧ j < idx + m then 1 else 0 := by
  induction h with
  | last idx t ht =>
    intro j
    rw [if_neg (by omega)]
    exact occCount_eq_zero_of_noSub (noSub_ph_of_noSub_chPat ht j)
  | step idx m t ht rest hr ih =>
    intro j
    have hrest := PHSeq.not_chpat_prefix hr
    rw [occCount_append, occCountIn_ph_eq_zero_of_noSub ht (ph_append_head idx rest)]
    rw [occCount_append, ih j]
    have hsingle : ∀ v : List Char,
        occCountIn (placeHolder_make j) ['\x00'] v =
          if (placeHolder_make j).isPrefixOf ('\x00' :: v) then 1 else 0 := by
      intro v
      simp [occCountIn]
    rw [ph_split idx, occCountIn_append, occCountIn_append, hsingle, hsingle]
    have hT2 : occCountIn (placeHolder_make j) (chPat ++ natDigits idx)
        (['\x00'] ++ rest) = 0 := by
      refine occCountIn_eq_zero_of_head (ph_head j) ?_
      intro c hc
      rcases List.mem_append.mp hc with hc | hc
      · have hall : ∀ x ∈ chPat, x ≠ '\x00' := by decide
        exact hall c hc
      · intro he
        have := natDigits_all_digits idx c hc
        rw [he] at this
        exact absurd this (by decide)
    have hT1 : ('\x00' :: (((chPat ++ natDigits idx) ++ ['\x00']) ++ rest)) =
        placeHolder_make idx ++ rest := by
      rw [ph_split]
      rfl
    have hT3 : ¬ ((placeHolder_make j).isPrefixOf ('\x00' :: rest) = true) := by
      intro hp
      have h2 := List.isPrefixOf_iff_prefix.mp hp
      rw [ph_cons_form, List.cons_prefix_cons] at h2
      exact hrest ((List.prefix_append chPat _).trans h2.2)
    rw [hT2, hT1, if_neg hT3]
    by_cases hji : j = idx
    · subst hji
      have h1 : ¬ (j + 1 ≤ j ∧ j < j + 1 + m) := by omega
      have h2 : j ≤ j ∧ j < j + (m + 1) := by omega
      rw [if_pos (ph_prefix_ph_append.mpr rfl), if_neg h1, if_pos h2]
    · rw [if_neg (fun hp => hji (ph_prefix_ph_append.mp hp))]
      by_cases hrange : idx + 1 ≤ j ∧ j < idx + 1 + m
      · have h2 : idx ≤ j ∧ j < idx + (m + 1) := by omega
        rw [if_pos hrange, if_pos h2]
      · have h2 : ¬ (idx ≤ j ∧ j < idx + (m + 1)) := by omega
        rw [if_neg hrange, if_neg h2]

theorem tokenAt_decomp {s name after : List Char}
    (h : tokenAt s = some (name, after)) :
    s = '.' :: (name ++ '{' :: after) := by
  cases s with
  | nil => simp [tokenAt] at h
  | cons c t =>
    simp only [tokenAt] at h
    split at h
    · next hc =>
      subst hc
      split at h
      · next hv =>
        split at h
        · next hb =>
          simp only [Option.some.injEq, Prod.mk.injEq] at h
          obtain ⟨rfl, rfl⟩ := h
          congr 1
          have h1 : t.takeWhile nameChar <+: t := List.takeWhile_prefix _
          have h2 : t.take (t.takeWhile nameChar).length = t.takeWhile nameChar :=
            (List.prefix_iff_eq_take.mp h1).symm
          have h3 : t.drop (t.takeWhile nameChar).length =
              '{' :: (t.drop (t.takeWhile nameChar).length).tail := by
            cases hd : t.drop (t.takeWhile nameChar).length with
            | nil => rw [hd] at hb; simp at hb
            | cons x xs =>
              rw [hd] at hb
              simp only [List.head?_cons, Option.some.injEq] at hb
              rw [hb]
              rfl
          conv_lhs =>
            rw [← List.take_append_drop (t.takeWhile nameChar).length t, h2, h3]
        · simp at h
      · simp at h
    · simp at h

theorem tokenSearch_decomp {s pre name after : List Char}
    (h : tokenSearch s = some (pre, name, after)) :
    s = pre ++ '.' :: (name ++ '{' :: after) := by
  induction s generalizing pre name after with
  | nil => simp [tokenSearch] at h
  | cons c rest ih =>
    simp only [tokenSearch] at h
    cases hta : tokenAt (c :: rest) with
    | some p =>
      obtain ⟨n2, a2⟩ := p
      rw [hta] at h
      simp only [Option.some.injEq, Prod.mk.injEq] at h
      obtain ⟨rfl, rfl, rfl⟩ := h
      simpa using tokenAt_decomp hta
    | none =>
      rw [hta] at h
      cases hts : tokenSearch rest with
      | none => rw [hts] at h; simp at h
      | some q =>
        obtain ⟨p2, n2, a2⟩ := q
        rw [hts] at h
        simp only [Option.some.injEq, Prod.mk.injEq] at h
        obtain ⟨rfl, rfl, rfl⟩ := h
        rw [List.cons_append]
        congr 1
        exact ih hts

theorem modLoopF_suffix :
    ∀ (fuel : Nat) (rest : List Char) (mods : List (List Char × List Char))
      (em : ExtractedModifiers), modLoopF fuel rest mods = .ok em →
      em.remaining <:+ rest := by
  intro fuel
  induction fuel with
  | zero =>
    intro rest mods em h
    simp only [modLoopF] at h
    cases h
    exact List.suffix_refl _
  | succ fuel ih =>
    intro rest mods em h
    simp only [modLoopF] at h
    cases hmm : modMatch rest with
    | none =>
      rw [hmm] at h
      cases h
      exact List.suffix_refl _
    | some name =>
      simp only [hmm] at h
      cases hbs : braceScan (rest.drop (name.length + 2)) 1 with
      | none =>
        simp only [hbs] at h
        exact Except.noConfusion h
      | some k =>
        simp only [hbs] at h
        refine (ih _ _ _ h).trans ?_
        exact (List.dropWhile_suffix _).trans
          ((List.drop_suffix _ _).trans (List.drop_suffix _ _))

theorem modifiers_extract_suffix {content : List Char}
    {em : ExtractedModifiers} (h : modifiers_extract content = .ok em) :
    em.remaining <:+ content := by
  simp only [modifiers_extract] at h
  cases hmm : modMatch (content.dropWhile pySpace) with
  | none =>
    simp only [hmm] at h
    cases h
    exact List.suffix_refl _
  | some name =>
    simp only [hmm] at h
    exact (modLoopF_suffix _ _ _ _ h).trans (List.dropWhile_suffix _)

theorem NodeInv_iff (n : ASTNode) :
    NodeInv n ↔
      ((∀ j, occCount (placeHolder_make j) n.content =
          if j < n.children.length then 1 else 0) ∧
        ∀ c ∈ n.children, NodeInv c) := by
  conv_lhs => rw [NodeInv]

/-- Invariant of the nested-directive scanning loop: on a `CHILD_`-free
input suffix the produced content interleaves `CHILD_`-free segments with
the placeholders `idx, idx+1, …` in order (one per produced child), and
every produced child satisfies the node invariant. -/
theorem processScanF_phseq :
    ∀ (fuel : Nat) (rest : List Char) (line idx : Nat) (out : List Char)
      (children : List ASTNode),
      NoSub chPat rest →
      processScanF fuel rest line idx = .ok (out, children) →
      PHSeq idx children.length out ∧ ∀ c ∈ children, NodeInv c := by
  intro fuel
  induction fuel with
  | zero =>
    intro rest line idx out children hns h
    simp only [processScanF] at h
    simp only [Except.ok.injEq, Prod.mk.injEq] at h
    obtain ⟨rfl, rfl⟩ := h
    exact ⟨PHSeq.last idx rest hns, by simp⟩
  | succ fuel ih =>
    intro rest line idx out children hns h
    simp only [processScanF] at h
    cases hts : tokenSearch rest with
    | none =>
      simp only [hts, Except.ok.injEq, Prod.mk.injEq] at h
      obtain ⟨rfl, rfl⟩ := h
      exact ⟨PHSeq.last idx rest hns, by simp⟩
    | some tri =>
      obtain ⟨pre, name, after⟩ := tri
      simp only [hts] at h
      have hdec := tokenSearch_decomp hts
      have hpre : NoSub chPat pre :=
        hns.mono (by rw [hdec]; exact (List.prefix_append _ _).isInfix)
      have hname : NoSub chPat name :=
        hns.mono (by
          rw [hdec]
          exact ⟨pre ++ ['.'], '{' :: after, by simp⟩)
      have hafter : NoSub chPat after :=
        hns.mono (by
          rw [hdec]
          exact ⟨pre ++ '.' :: (name ++ ['{']), [], by simp⟩)
      by_cases hreg : registered name = true
      · rw [if_pos hreg] at h
        cases hbs : braceScan after 1 with
        | none =>
          simp only [hbs] at h
          exact Except.noConfusion h
        | some k =>
          simp only [hbs] at h
          cases hme : modifiers_extract (after.take k) with
          | error e =>
            simp only [hme] at h
            exact Except.noConfusion h
          | ok em =>
            simp only [hme] at h
            cases hcr : processScanF fuel em.remaining line 0 with
            | error e =>
              simp only [hcr] at h
              exact Except.noConfusion h
            | ok cres =>
              simp only [hcr] at h
              cases htr : processScanF fuel (after.drop (k + 1)) line (idx + 1) with
              | error e =>
                simp only [htr] at h
                exact Except.noConfusion h
              | ok tres =>
                simp only [htr, Except.ok.injEq, Prod.mk.injEq] at h
                obtain ⟨hout, hch⟩ := h
                subst hout
                subst hch
                have hnest : NoSub chPat (after.take k) :=
                  hafter.mono (List.take_prefix _ _).isInfix
                have hrem : NoSub chPat em.remaining :=
                  hnest.mono (modifiers_extract_suffix hme).isInfix
                have hdrop : NoSub chPat (after.drop (k + 1)) :=
                  hafter.mono (List.drop_suffix _ _).isInfix
                obtain ⟨hseq1, hinv1⟩ :=
                  ih em.remaining line 0 cres.1 cres.2 hrem (by rw [hcr])
                obtain ⟨hseq2, hinv2⟩ :=
                  ih (after.drop (k + 1)) line (idx + 1) tres.1 tres.2 hdrop
                    (by rw [htr])
                constructor
                · simp only [List.length_cons]
                  rw [List.append_assoc]
                  exact PHSeq.step idx tres.2.length pre hpre tres.1 hseq2
                · intro c hc
                  rcases List.mem_cons.mp hc with rfl | hc
                  · rw [NodeInv_iff]
                    refine ⟨?_, hinv1⟩
                    intro j
                    have := hseq1.occ j
                    simpa using this
                  · exact hinv2 c hc
      · rw [if_neg hreg] at h
        cases htr : processScanF fuel after line idx with
        | error e =>
          simp only [htr] at h
          exact Except.noConfusion h
        | ok tres =>
          simp only [htr, Except.ok.injEq, Prod.mk.injEq] at h
          obtain ⟨hout, hch⟩ := h
          subst hout
          subst hch
          obtain ⟨hseq, hinv⟩ := ih after line idx tres.1 tres.2 hafter (by rw [htr])
          refine ⟨?_, hinv⟩
          have h1 : PHSeq idx tres.2.length (name ++ '{' :: tres.1) :=
            PHSeq.prepend_sep name '{' (by decide) hname hseq
          rw [List.append_assoc, List.cons_append]
          exact PHSeq.prepend_sep pre '.' (by decide) hpre h1

theorem escScan_suffix (l : List Char) (d : Nat) :
    ∀ rem acc, escScan l d = some (rem, acc) → rem <:+ l := by
  induction l, d using escScan.induct with
  | case1 d rest h =>
    intro rem acc heq
    simp only [escScan] at heq
    rw [if_pos h] at heq
    simp only [Option.some.injEq, Prod.mk.injEq] at heq
    obtain ⟨rfl, -⟩ := heq
    exact (List.suffix_cons _ _).trans (List.suffix_cons _ _)
  | case2 d rest h ih =>
    intro rem acc heq
    simp only [escScan] at heq
    rw [if_neg h] at heq
    cases hscan : escScan rest (d - 1) with
    | none => rw [hscan] at heq; simp at heq
    | some p =>
      obtain ⟨r1, a1⟩ := p
      rw [hscan] at heq
      simp only [Option.map_some', Option.some.injEq, Prod.mk.injEq] at heq
      obtain ⟨rfl, -⟩ := heq
      exact ((ih r1 a1 (by rw [hscan])).trans (List.suffix_cons _ _)).trans
        (List.suffix_cons _ _)
  | case3 d rest ih =>
    intro rem acc heq
    simp only [escScan] at heq
    cases hscan : escScan rest (d + 1) with
    | none => rw [hscan] at heq; simp at heq
    | some p =>
      obtain ⟨r1, a1⟩ := p
      rw [hscan] at heq
      simp only [Option.map_some', Option.some.injEq, Prod.mk.injEq] at heq
      obtain ⟨rfl, -⟩ := heq
      exact ((ih r1 a1 (by rw [hscan])).trans (List.suffix_cons _ _)).trans
        (List.suffix_cons _ _)
  | case4 d rest ih =>
    intro rem acc heq
    simp only [escScan] at heq
    cases hscan : escScan rest (d + 1) with
    | none => rw [hscan] at heq; simp at heq
    | some p =>
      obtain ⟨r1, a1⟩ := p
      rw [hscan] at heq
      simp only [Option.map_some', Option.some.injEq, Prod.mk.injEq] at heq
      obtain ⟨rfl, -⟩ := heq
      exact (ih r1 a1 (by rw [hscan])).trans (List.suffix_cons _ _)
  | case5 d rest h =>
    intro rem acc heq
    simp only [escScan] at heq
    rw [if_pos h] at heq
    simp only [Option.some.injEq, Prod.mk.injEq] at heq
    obtain ⟨rfl, -⟩ := heq
    exact List.suffix_cons _ _
  | case6 d rest h ih =>
    intro rem acc heq
    simp only [escScan] at heq
    rw [if_neg h] at heq
    cases hscan : escScan rest (d - 1) with
    | none => rw [hscan] at heq; simp at heq
    | some p =>
      obtain ⟨r1, a1⟩ := p
      rw [hscan] at heq
      simp only [Option.map_some', Option.some.injEq, Prod.mk.injEq] at heq
      obtain ⟨rfl, -⟩ := heq
      exact (ih r1 a1 (by rw [hscan])).trans (List.suffix_cons _ _)
  | case7 d c rest hx1 hx2 hx3 hx4 ih =>
    intro rem acc heq
    simp only [escScan, hx1, hx2, hx3, hx4] at heq
    cases hscan : escScan rest d with
    | none => rw [hscan] at heq; simp at heq
    | some p =>
      obtain ⟨r1, a1⟩ := p
      rw [hscan] at heq
      simp only [Option.map_some', Option.some.injEq, Prod.mk.injEq] at heq
      obtain ⟨rfl, -⟩ := heq
      exact (ih r1 a1 (by rw [hscan])).trans (List.suffix_cons _ _)
  | case8 d =>
    intro rem acc heq
    simp [escScan] at heq

theorem escTry_suffix {s : List Char} {p : List Char × List Char}
    (h : escTry s = some p) : p.2 <:+ s := by
  simp only [escTry] at h
  cases hm : escMatch s with
  | none =>
    simp only [hm] at h
    exact Option.noConfusion h
  | some pr =>
    obtain ⟨name, e⟩ := pr
    simp only [hm] at h
    cases hs : escScan (s.drop e) 1 with
    | none =>
      simp only [hs] at h
      exact Option.noConfusion h
    | some q =>
      obtain ⟨rem, acc⟩ := q
      simp only [hs, Option.some.injEq] at h
      subst h
      exact (escScan_suffix _ _ _ _ hs).trans (List.drop_suffix _ _)

theorem no_H_escMid (eid : Nat) : 'H' ∉ "ESCAPE_".toList ++ natDigits eid := by
  intro hm
  rcases List.mem_append.mp hm with hm | hm
  · revert hm
    decide
  · have := natDigits_all_digits eid _ hm
    exact absurd this (by decide)

theorem noSub_ph_glue {t v mid : List Char} (ht : NoSub chPat t)
    (hv : NoSub chPat v) (hmid : 'H' ∉ mid) :
    NoSub chPat (t ++ ('\x00' :: (mid ++ '\x00' :: v))) :=
  noSub_sep (by decide) ht
    (noSub_sep (by decide) (noSub_chPat_of_no_H hmid) hv)

theorem escapePH_append (eid : Nat) (X : List Char) :
    escapePH eid ++ X =
      '\x00' :: (("ESCAPE_".toList ++ natDigits eid) ++ '\x00' :: X) := by
  simp [escapePH, List.append_assoc]

theorem escProtectF_noSub :
    ∀ (fuel : Nat) (s : List Char) (eid : Nat) (t : List Char),
      NoSub chPat (t ++ s) →
      NoSub chPat (t ++ (escProtectF fuel s eid).1) := by
  intro fuel
  induction fuel with
  | zero =>
    intro s eid t h
    exact h
  | succ fuel ih =>
    intro s eid t h
    cases s with
    | nil =>
      simp only [escProtectF]
      exact h
    | cons c rest =>
      simp only [escProtectF]
      by_cases hcond : c = '\\' ∧ rest.head? = some '.'
      · rw [if_pos hcond]
        cases htry : escTry (c :: rest) with
        | none =>
          simp only [htry]
          have h2 := ih rest eid (t ++ [c]) (by rw [List.append_assoc]; exact h)
          rw [List.append_assoc] at h2
          exact h2
        | some p =>
          simp only [htry]
          have hnt : NoSub chPat t := h.mono (List.prefix_append _ _).isInfix
          have hnp2 : NoSub chPat p.2 :=
            h.mono ((escTry_suffix htry).trans (List.suffix_append t _)).isInfix
          have H : NoSub chPat ((t ++ escapePH eid) ++ p.2) := by
            rw [List.append_assoc, escapePH_append]
            exact noSub_ph_glue hnt hnp2 (no_H_escMid eid)
          have h2 := ih p.2 (eid + 1) (t ++ escapePH eid) H
          rw [List.append_assoc] at h2
          exact h2
      · rw [if_neg hcond]
        have h2 := ih rest eid (t ++ [c]) (by rw [List.append_assoc]; exact h)
        rw [List.append_assoc] at h2
        exact h2

theorem escapes_protect_noSub {s : List Char} (h : NoSub chPat s) :
    NoSub chPat (escapes_protect s).1 :=
  escProtectF_noSub (s.length + 1) s 0 [] h


theorem pyReplaceF_br_noSub :
    ∀ (fuel : Nat) (s t : List Char),
      NoSub chPat (t ++ s) →
      NoSub chPat (t ++ pyReplaceF fuel ['\\', '\\'] "<br>".toList s) := by
  intro fuel
  induction fuel with
  | zero =>
    intro s t h
    exact h
  | succ fuel ih =>
    intro s t h
    cases s with
    | nil =>
      simp only [pyReplaceF]
      exact h
    | cons c rest =>
      simp only [pyReplaceF]
      split
      · next hsp =>
        have hnt : NoSub chPat t := h.mono (List.prefix_append _ _).isInfix
        have hnD : NoSub chPat ((c :: rest).drop (['\\', '\\'] : List Char).length) :=
          h.mono ((List.drop_suffix _ _).trans (List.suffix_append t _)).isInfix
        have H : NoSub chPat ((t ++ "<br>".toList) ++
            (c :: rest).drop (['\\', '\\'] : List Char).length) := by
          rw [List.append_assoc]
          have hinner : NoSub chPat ("br".toList ++
              '>' :: (c :: rest).drop (['\\', '\\'] : List Char).length) :=
            noSub_sep (by decide) (by decide) hnD
          have houter : NoSub chPat (t ++ '<' :: ("br".toList ++
              '>' :: (c :: rest).drop (['\\', '\\'] : List Char).length)) :=
            noSub_sep (by decide) hnt hinner
          exact houter
        have h2 := ih ((c :: rest).drop (['\\', '\\'] : List Char).length)
          (t ++ "<br>".toList) H
        rw [List.append_assoc] at h2
        exact h2
      · have h2 := ih rest (t ++ [c]) (by rw [List.append_assoc]; exact h)
        rw [List.append_assoc] at h2
        exact h2

theorem pyReplace_br_noSub {s : List Char} (h : NoSub chPat s) :
    NoSub chPat (pyReplace ['\\', '\\'] "<br>".toList s) :=
  pyReplaceF_br_noSub (s.length + 1) s [] h

theorem no_H_codeMid (cid : Nat) : 'H' ∉ "CODE_".toList ++ natDigits cid := by
  intro hm
  rcases List.mem_append.mp hm with hm | hm
  · revert hm
    decide
  · have := natDigits_all_digits cid _ hm
    exact absurd this (by decide)

theorem codePH_append (cid : Nat) (X : List Char) :
    codePH cid ++ X =
      '\x00' :: (("CODE_".toList ++ natDigits cid) ++ '\x00' :: X) := by
  simp [codePH, List.append_assoc]

theorem codeProtectF_noSub :
    ∀ (fuel : Nat) (s : List Char) (cid off line : Nat) (t : List Char)
      (r : List Char × List (Nat × List Char)),
      NoSub chPat (t ++ s) →
      codeProtectF fuel s cid off line = .ok r →
      NoSub chPat (t ++ r.1) := by
  intro fuel
  induction fuel with
  | zero =>
    intro s cid off line t r h heq
    simp only [codeProtectF] at heq
    cases heq
    exact h
  | succ fuel ih =>
    intro s cid off line t r h heq
    cases s with
    | nil =>
      simp only [codeProtectF] at heq
      cases heq
      exact h
    | cons c rest =>
      simp only [codeProtectF] at heq
      by_cases hpre : (".code\x7b".toList.isPrefixOf (c :: rest)) = true
      · rw [if_pos hpre] at heq
        cases hbs : braceScan ((c :: rest).drop 6) 1 with
        | none =>
          simp only [hbs] at heq
          exact Except.noConfusion heq
        | some k =>
          simp only [hbs] at heq
          have hnt : NoSub chPat t := h.mono (List.prefix_append _ _).isInfix
          have hnD : NoSub chPat (((c :: rest).drop 6).drop (k + 1)) :=
            h.mono (((List.drop_suffix _ _).trans
              ((List.drop_suffix _ _).trans (List.suffix_append t _)))).isInfix
          have hsplit : (c :: rest).take (6 + k + 1) ++
              ((c :: rest).drop 6).drop (k + 1) = c :: rest := by
            rw [List.drop_drop]
            have he : 6 + (k + 1) = 6 + k + 1 := by omega
            rw [he, List.take_append_drop]
          by_cases hsl : syntaxLead (((c :: rest).drop 6).take k) = true
          · rw [if_pos hsl] at heq
            cases hrec : codeProtectF fuel (((c :: rest).drop 6).drop (k + 1))
                (cid + 1) (off + 6 + k + 1) line with
            | error e =>
              simp only [hrec] at heq
              exact Except.noConfusion heq
            | ok r2 =>
              simp only [hrec] at heq
              cases heq
              have H : NoSub chPat ((t ++ ".code\x7b".toList ++ codePH cid ++ ['}'])
                  ++ ((c :: rest).drop 6).drop (k + 1)) := by
                have hinner : NoSub chPat (codePH cid ++
                    ('}' :: ((c :: rest).drop 6).drop (k + 1))) := by
                  rw [codePH_append]
                  have hbr0 : NoSub chPat (([] : List Char) ++
                      '}' :: ((c :: rest).drop 6).drop (k + 1)) :=
                    noSub_sep (by decide) (by decide) hnD
                  have hbr : NoSub chPat
                      ('}' :: ((c :: rest).drop 6).drop (k + 1)) := hbr0
                  have hmid0 : NoSub chPat (([] : List Char) ++
                      '\x00' :: (("CODE_".toList ++ natDigits cid) ++
                        '\x00' :: ('}' :: ((c :: rest).drop 6).drop (k + 1)))) :=
                    noSub_sep (by decide) (by decide)
                      (noSub_sep (by decide)
                        (noSub_chPat_of_no_H (no_H_codeMid cid)) hbr)
                  exact hmid0
                have houter : NoSub chPat (t ++ ('.' :: ("code".toList ++
                    '{' :: (codePH cid ++ ('}' :: ((c :: rest).drop 6).drop (k + 1)))))) :=
                  noSub_sep (by decide) hnt
                    (noSub_sep (by decide) (by decide) hinner)
                have hEq : (t ++ ".code\x7b".toList ++ codePH cid ++ ['}'])
                    ++ ((c :: rest).drop 6).drop (k + 1) =
                    t ++ ('.' :: ("code".toList ++
                      '{' :: (codePH cid ++ ('}' :: ((c :: rest).drop 6).drop (k + 1))))) := by
                  simp [List.append_assoc]
                rw [hEq]
                exact houter
              have h2 := ih (((c :: rest).drop 6).drop (k + 1)) (cid + 1)
                (off + 6 + k + 1) line (t ++ ".code\x7b".toList ++ codePH cid ++ ['}'])
                r2 H hrec
              have hEq2 : (t ++ ".code\x7b".toList ++ codePH cid ++ ['}']) ++ r2.1 =
                  t ++ (".code\x7b".toList ++ codePH cid ++ '}' :: r2.1) := by
                simp [List.append_assoc]
              rw [hEq2] at h2
              exact h2
          · rw [if_neg hsl] at heq
            cases hrec : codeProtectF fuel (((c :: rest).drop 6).drop (k + 1))
                cid (off + 6 + k + 1) line with
            | error e =>
              simp only [hrec] at heq
              exact Except.noConfusion heq
            | ok r2 =>
              simp only [hrec] at heq
              cases heq
              have H : NoSub chPat ((t ++ (c :: rest).take (6 + k + 1))
                  ++ ((c :: rest).drop 6).drop (k + 1)) := by
                rw [List.append_assoc, hsplit]
                exact h
              have h2 := ih (((c :: rest).drop 6).drop (k + 1)) cid
                (off + 6 + k + 1) line (t ++ (c :: rest).take (6 + k + 1)) r2 H hrec
              rw [List.append_assoc] at h2
              exact h2
      · rw [if_neg hpre] at heq
        cases hrec : codeProtectF fuel rest cid (off + 1) line with
        | error e =>
          simp only [hrec] at heq
          exact Except.noConfusion heq
        | ok r2 =>
          simp only [hrec] at heq
          cases heq
          have h2 := ih rest cid (off + 1) line (t ++ [c]) r2
            (by rw [List.append_assoc]; exact h) hrec
          rw [List.append_assoc] at h2
          exact h2

theorem codeblocks_protect_noSub {s : List Char}
    {r : List Char × List (Nat × List Char)} (h : NoSub chPat s)
    (heq : codeblocks_protect s = .ok r) : NoSub chPat r.1 :=
  codeProtectF_noSub (s.length + 1) s 0 0 1 [] r h heq

theorem pyStrip_isInfix (s : List Char) : pyStrip s <:+: s := by
  have h1 : (((s.dropWhile pySpace).reverse.dropWhile pySpace)).reverse <+:
      s.dropWhile pySpace := by
    have h0 : (s.dropWhile pySpace).reverse.dropWhile pySpace <:+
        (s.dropWhile pySpace).reverse := List.dropWhile_suffix pySpace
    have h2 := List.reverse_prefix.mpr h0
    rwa [List.reverse_reverse] at h2
  exact h1.isInfix.trans (List.dropWhile_suffix _).isInfix


theorem content_processRecursive_inv {content : List Char} {line : Nat}
    {pc : ProcessedContent} (hns : NoSub chPat content)
    (h : content_processRecursive content line = .ok pc) :
    (∀ j, occCount (placeHolder_make j) pc.content =
        if j < pc.children.length then 1 else 0) ∧
    ∀ c ∈ pc.children, NodeInv c := by
  simp only [content_processRecursive] at h
  cases hme : modifiers_extract content with
  | error e =>
    simp only [hme] at h
    exact Except.noConfusion h
  | ok em =>
    simp only [hme] at h
    cases hps : processScanF (content.length + 1) em.remaining line 0 with
    | error e =>
      simp only [hps] at h
      exact Except.noConfusion h
    | ok r =>
      simp only [hps] at h
      cases h
      have hrem : NoSub chPat em.remaining :=
        hns.mono (modifiers_extract_suffix hme).isInfix
      obtain ⟨hseq, hinv⟩ :=
        processScanF_phseq (content.length + 1) em.remaining line 0 r.1 r.2
          hrem (by rw [hps])
      refine ⟨?_, hinv⟩
      intro j
      have hocc := hseq.occ j
      simpa using hocc

theorem parseLoopF_nodeInv :
    ∀ (fuel : Nat) (source : List Char) (pos line : Nat)
      (nodes : List ASTNode),
      NoSub chPat source →
      parseLoopF source fuel pos line = .ok nodes →
      ∀ n ∈ nodes, NodeInv n := by
  intro fuel
  induction fuel with
  | zero =>
    intro source pos line nodes hns h
    simp only [parseLoopF] at h
    cases h
    simp
  | succ fuel ih =>
    intro source pos line nodes hns h
    simp only [parseLoopF] at h
    split at h
    · cases h
      simp
    · split at h
      · cases h
        simp
      · next dpos name hdf =>
        split at h
        · exact Except.noConfusion h
        · next bracePos hfc =>
          split at h
          · exact Except.noConfusion h
          · next closePos hbm =>
            split at h
            · exact Except.noConfusion h
            · next pc hpc =>
              split at h
              · exact Except.noConfusion h
              · next nodes2 hloop =>
                cases h
                intro n hn
                rcases List.mem_cons.mp hn with rfl | hn
                · rw [NodeInv_iff]
                  have hcont : NoSub chPat
                      ((source.drop (bracePos + 1)).take
                        (closePos - (bracePos + 1))) :=
                    hns.mono ((List.take_prefix _ _).isInfix.trans
                      (List.drop_suffix _ _).isInfix)
                  exact content_processRecursive_inv hcont hpc
                · exact ih source (closePos + 1) _ nodes2 hns hloop n hn

/-- C1, counterexample.  The claim asserts that the content of every parsed
node contains no placeholder with an index outside `0 … N-1`.  But the
placeholder alphabet is not reserved: parsing
`".tt{.bf{a}CHILD_9.bf{b}}"` yields one node with two children whose
content is `"\x00CHILD_0\x00CHILD_9\x00CHILD_1\x00"` — the literal source text
`CHILD_9`, sandwiched between the closing NUL of the first placeholder and
the opening NUL of the second, forms exactly one occurrence of
`placeHolder_make 9`, although the node has only two children (indices 0
and 1). -/
theorem claim_C1_placeholder_counterexample :
    parse ".tt\x7b.bf\x7ba\x7dCHILD_9.bf\x7bb\x7d\x7d".toList =
      .ok [⟨"tt".toList, [],
        "\x00CHILD_0\x00CHILD_9\x00CHILD_1\x00".toList,
        [⟨"bf".toList, [], "a".toList, [], 1⟩,
         ⟨"bf".toList, [], "b".toList, [], 1⟩], 1⟩] ∧
    occCount (placeHolder_make 9)
      "\x00CHILD_0\x00CHILD_9\x00CHILD_1\x00".toList = 1 ∧
    ¬ (9 < 2) := by
  refine ⟨rfl, rfl, by omega⟩

/-- C1 (amended).  Provided the source text contains no occurrence of the
literal string `CHILD_` (the body of the child-placeholder token), every
node in the tree returned by `parse`, at every nesting depth, satisfies the
placeholder invariant `NodeInv`: its content contains exactly one
occurrence of `placeHolder_make j` for each `j` below the number of
children and no occurrence of any other placeholder. -/
theorem claim_C1_placeholder_invariant (src : List Char)
    (h : NoSub chPat src) (nodes : List ASTNode)
    (hp : parse src = .ok nodes) : ∀ n ∈ nodes, NodeInv n := by
  simp only [parse] at hp
  cases hcb : codeblocks_protect
      (pyReplace ['\\', '\\'] "<br>".toList (escapes_protect src).1) with
  | error e =>
    simp only [hcb] at hp
    exact Except.noConfusion hp
  | ok r =>
    simp only [hcb] at hp
    have hr : NoSub chPat r.1 :=
      codeblocks_protect_noSub (pyReplace_br_noSub (escapes_protect_noSub h)) hcb
    have hs : NoSub chPat (pyStrip r.1) := hr.mono (pyStrip_isInfix _)
    split at hp
    · cases hp
      simp
    · exact parseLoopF_nodeInv _ _ _ _ _ hs hp

theorem claim_C1_placeholder_invariant_witness :
    NoSub chPat ".tt\x7b.bf\x7ba\x7d.em\x7bb\x7d\x7d".toList ∧
    (∀ n ∈ [(⟨"tt".toList, [],
        "\x00CHILD_0\x00\x00CHILD_1\x00".toList,
        [⟨"bf".toList, [], "a".toList, [], 1⟩,
         ⟨"em".toList, [], "b".toList, [], 1⟩], 1⟩ : ASTNode)], NodeInv n) :=
  ⟨by decide,
    claim_C1_placeholder_invariant ".tt\x7b.bf\x7ba\x7d.em\x7bb\x7d\x7d".toList (by decide) _ rfl⟩


/-! ### Claim C3, amended: the missing-brace error branch is dead code

`directive_find` only ever returns a match of the token regex, whose match
necessarily contains the open brace; hence `source.find('{', pos)` in
`parse` always succeeds and the `Expected '{'` error is unreachable.  All
other error sites of the pipeline carry a different error kind. -/

/-- Any match returned by the directive search is a registered name with
its open brace present right after it in the source. -/
theorem directiveFindF_some_struct :
    ∀ (source : List Char) (fuel searchPos dpos : Nat) (name : List Char),
      directiveFindF source fuel searchPos = some (dpos, name) →
      registered name = true ∧
      ∃ after, source.drop dpos = '.' :: (name ++ '{' :: after) := by
  intro source fuel
  induction fuel with
  | zero =>
    intro searchPos dpos name h
    exact Option.noConfusion h
  | succ fuel ih =>
    intro searchPos dpos name h
    simp only [directiveFindF] at h
    cases hts : tokenSearch (source.drop searchPos) with
    | none =>
      simp only [hts] at h
      exact Option.noConfusion h
    | some tri =>
      obtain ⟨pre, nm, aft⟩ := tri
      simp only [hts] at h
      by_cases hreg : registered nm = true
      · rw [if_pos hreg] at h
        simp only [Option.some.injEq, Prod.mk.injEq] at h
        obtain ⟨rfl, rfl⟩ := h
        refine ⟨hreg, aft, ?_⟩
        have hdd : source.drop (searchPos + pre.length) =
            (source.drop searchPos).drop pre.length := by
          rw [List.drop_drop, Nat.add_comm]
        rw [hdd, tokenSearch_decomp hts, List.drop_left]
      · rw [if_neg hreg] at h
        exact ih _ _ _ h

theorem findCharFrom_ne_none {source : List Char} {start : Nat}
    (h : '{' ∈ source.drop start) : findCharFrom source '{' start ≠ none := by
  simp only [findCharFrom]
  cases hf : (source.drop start).findIdx? (· = '{') with
  | some i =>
    simp only [hf]
    simp
  | none =>
    exfalso
    rw [List.findIdx?_eq_none_iff] at hf
    have := hf '{' h
    simp at this

theorem modLoopF_no_expectedBrace :
    ∀ (fuel : Nat) (rest : List Char) (mods : List (List Char × List Char))
      (e : PErr), modLoopF fuel rest mods = .error e →
      e.kind ≠ .expectedBrace := by
  intro fuel
  induction fuel with
  | zero =>
    intro rest mods e h
    exact Except.noConfusion h
  | succ fuel ih =>
    intro rest mods e h
    simp only [modLoopF] at h
    cases hmm : modMatch rest with
    | none =>
      simp only [hmm] at h
      exact Except.noConfusion h
    | some name =>
      simp only [hmm] at h
      cases hbs : braceScan (rest.drop (name.length + 2)) 1 with
      | none =>
        simp only [hbs] at h
        cases h
        decide
      | some k =>
        simp only [hbs] at h
        exact ih _ _ _ h

theorem modifiers_extract_no_expectedBrace {content : List Char} {e : PErr}
    (h : modifiers_extract content = .error e) : e.kind ≠ .expectedBrace := by
  simp only [modifiers_extract] at h
  cases hmm : modMatch (content.dropWhile pySpace) with
  | none =>
    simp only [hmm] at h
    exact Except.noConfusion h
  | some name =>
    simp only [hmm] at h
    exact modLoopF_no_expectedBrace _ _ _ _ h

theorem processScanF_no_expectedBrace :
    ∀ (fuel : Nat) (rest : List Char) (line idx : Nat) (e : PErr),
      processScanF fuel rest line idx = .error e →
      e.kind ≠ .expectedBrace := by
  intro fuel
  induction fuel with
  | zero =>
    intro rest line idx e h
    exact Except.noConfusion h
  | succ fuel ih =>
    intro rest line idx e h
    simp only [processScanF] at h
    cases hts : tokenSearch rest with
    | none =>
      simp only [hts] at h
      exact Except.noConfusion h
    | some tri =>
      obtain ⟨pre, name, after⟩ := tri
      simp only [hts] at h
      by_cases hreg : registered name = true
      · rw [if_pos hreg] at h
        cases hbs : braceScan after 1 with
        | none =>
          simp only [hbs] at h
          cases h
          intro hk
          exact ErrKind.noConfusion hk
        | some k =>
          simp only [hbs] at h
          cases hme : modifiers_extract (after.take k) with
          | error e2 =>
            simp only [hme] at h
            cases h
            exact modifiers_extract_no_expectedBrace hme
          | ok em =>
            simp only [hme] at h
            cases hcr : processScanF fuel em.remaining line 0 with
            | error e2 =>
              simp only [hcr] at h
              cases h
              exact ih _ _ _ _ hcr
            | ok cres =>
              simp only [hcr] at h
              cases htr : processScanF fuel (after.drop (k + 1)) line (idx + 1) with
              | error e2 =>
                simp only [htr] at h
                cases h
                exact ih _ _ _ _ htr
              | ok tres =>
                simp only [htr] at h
                exact Except.noConfusion h
      · rw [if_neg hreg] at h
        cases htr : processScanF fuel after line idx with
        | error e2 =>
          simp only [htr] at h
          cases h
          exact ih _ _ _ _ htr
        | ok tres =>
          simp only [htr] at h
          exact Except.noConfusion h

theorem content_processRecursive_no_expectedBrace {content : List Char}
    {line : Nat} {e : PErr}
    (h : content_processRecursive content line = .error e) :
    e.kind ≠ .expectedBrace := by
  simp only [content_processRecursive] at h
  cases hme : modifiers_extract content with
  | error e2 =>
    simp only [hme] at h
    cases h
    exact modifiers_extract_no_expectedBrace hme
  | ok em =>
    simp only [hme] at h
    cases hps : processScanF (content.length + 1) em.remaining line 0 with
    | error e2 =>
      simp only [hps] at h
      cases h
      exact processScanF_no_expectedBrace _ _ _ _ _ hps
    | ok r =>
      simp only [hps] at h
      exact Except.noConfusion h

theorem brace_findMatching_no_expectedBrace {source : List Char}
    {line startPos : Nat} {e : PErr}
    (h : brace_findMatching source line startPos = .error e) :
    e.kind ≠ .expectedBrace := by
  simp only [brace_findMatching] at h
  cases hbs : braceScan (source.drop (startPos + 1)) 1 with
  | some k =>
    simp only [hbs] at h
    exact Except.noConfusion h
  | none =>
    simp only [hbs] at h
    cases h
    intro hk
    exact ErrKind.noConfusion hk

theorem codeProtectF_no_expectedBrace :
    ∀ (fuel : Nat) (s : List Char) (cid off line : Nat) (e : PErr),
      codeProtectF fuel s cid off line = .error e →
      e.kind ≠ .expectedBrace := by
  intro fuel
  induction fuel with
  | zero =>
    intro s cid off line e h
    exact Except.noConfusion h
  | succ fuel ih =>
    intro s cid off line e h
    cases s with
    | nil =>
      simp only [codeProtectF] at h
      exact Except.noConfusion h
    | cons c rest =>
      simp only [codeProtectF] at h
      by_cases hpre : (".code\x7b".toList.isPrefixOf (c :: rest)) = true
      · rw [if_pos hpre] at h
        cases hbs : braceScan ((c :: rest).drop 6) 1 with
        | none =>
          simp only [hbs] at h
          cases h
          intro hk
          exact ErrKind.noConfusion hk
        | some k =>
          simp only [hbs] at h
          by_cases hsl : syntaxLead (((c :: rest).drop 6).take k) = true
          · rw [if_pos hsl] at h
            cases hrec : codeProtectF fuel (((c :: rest).drop 6).drop (k + 1))
                (cid + 1) (off + 6 + k + 1) line with
            | error e2 =>
              simp only [hrec] at h
              cases h
              exact ih _ _ _ _ _ hrec
            | ok r2 =>
              simp only [hrec] at h
              exact Except.noConfusion h
          · rw [if_neg hsl] at h
            cases hrec : codeProtectF fuel (((c :: rest).drop 6).drop (k + 1))
                cid (off + 6 + k + 1) line with
            | error e2 =>
              simp only [hrec] at h
              cases h
              exact ih _ _ _ _ _ hrec
            | ok r2 =>
              simp only [hrec] at h
              exact Except.noConfusion h
      · rw [if_neg hpre] at h
        cases hrec : codeProtectF fuel rest cid (off + 1) line with
        | error e2 =>
          simp only [hrec] at h
          cases h
          exact ih _ _ _ _ _ hrec
        | ok r2 =>
          simp only [hrec] at h
          exact Except.noConfusion h

theorem parseLoopF_no_expectedBrace :
    ∀ (fuel : Nat) (source : List Char) (pos line : Nat) (e : PErr),
      parseLoopF source fuel pos line = .error e →
      e.kind ≠ .expectedBrace := by
  intro fuel
  induction fuel with
  | zero =>
    intro source pos line e h
    exact Except.noConfusion h
  | succ fuel ih =>
    intro source pos line e h
    simp only [parseLoopF] at h
    split at h
    · exact Except.noConfusion h
    · split at h
      · exact Except.noConfusion h
      · next dpos name hdf =>
        split at h
        · next hfc =>
          exfalso
          obtain ⟨-, after, hstruct⟩ :=
            directiveFindF_some_struct source _ _ _ _ hdf
          refine findCharFrom_ne_none ?_ hfc
          rw [hstruct]
          exact List.mem_cons_of_mem _
            (List.mem_append_right _ (List.mem_cons_self _ _))
        · next bracePos hfc =>
          split at h
          · next e2 hbm =>
            cases h
            exact brace_findMatching_no_expectedBrace hbm
          · next closePos hbm =>
            split at h
            · next e2 hpc =>
              cases h
              exact content_processRecursive_no_expectedBrace hpc
            · next pc hpc =>
              split at h
              · next e2 hloop =>
                cases h
                exact ih _ _ _ _ hloop
              · next nodes hloop =>
                exact Except.noConfusion h

/-- C3 (amended).  A registered directive name with no `{` following it is
never recognized as a directive and is not a fatal parse error: (1) every
match the directive search returns has its open brace present right after
the name, so a bare name is left as plain text and parsing continues past
it; (2) consequently the missing-brace (`Expected '{'`) error branch is
unreachable — for no source does `parse` return an `expectedBrace` error;
(3) in particular every source containing no `{` at all parses to `ok []`;
and (4) concretely, `".bf{x} .slide"` — where the registered name `slide`
has no brace while another directive is properly braced — parses to just
the `bf` node, with no error. -/
theorem claim_C3_amended :
    (∀ (source : List Char) (fuel searchPos dpos : Nat) (name : List Char),
        directiveFindF source fuel searchPos = some (dpos, name) →
        registered name = true ∧
        ∃ after, source.drop dpos = '.' :: (name ++ '{' :: after)) ∧
    (∀ (src : List Char) (e : PErr),
        parse src = .error e → e.kind ≠ .expectedBrace) ∧
    (∀ s : List Char, '{' ∉ s → parse s = .ok []) ∧
    parse ".bf\x7bx\x7d .slide".toList =
      .ok [⟨"bf".toList, [], "x".toList, [], 1⟩] := by
  refine ⟨directiveFindF_some_struct, ?_, parse_no_brace, by rfl⟩
  intro src e h
  simp only [parse] at h
  cases hcb : codeblocks_protect
      (pyReplace ['\\', '\\'] "<br>".toList (escapes_protect src).1) with
  | error e2 =>
    simp only [hcb] at h
    cases h
    exact codeProtectF_no_expectedBrace _ _ _ _ _ _ hcb
  | ok r =>
    simp only [hcb] at h
    split at h
    · exact Except.noConfusion h
    · exact parseLoopF_no_expectedBrace _ _ _ _ _ h

/-- Witness for the amended C3: the brace-free conjunct applied at a
concrete input with a registered name and no brace. -/
theorem claim_C3_amended_witness :
    ('{' ∉ ".slide world".toList) ∧ parse ".slide world".toList = .ok [] :=
  ⟨by decide, claim_C3_amended.2.2.1 ".slide world".toList (by decide)⟩


end Slidedown
